import Mathlib

/-!
Verification development for the Storyspire narration (TTS) subsystem.

The definitions below are a shallow embedding of the playback controller in
`src/services/openrouter.ts` (the `expo-speech` based TTS controller that is
appended to that file): the pure chunker `buildChunks`, and the session state
machine (`speakText`, `pauseSpeech`, `resumeSpeech`, `restartSpeech`,
`seekToChunk`, `setPreferences`, `speakChunkChain` and its engine callbacks).

Modelling conventions:
* JS strings are modelled as `List Char`; `.length` is the character count.
* The JS whitespace class `\s` is modelled by the ASCII whitespace
  characters (space, tab, CR, LF, vertical tab, form feed); the source never
  manipulates exotic Unicode whitespace.
* JS numbers (timestamps, rates, progress fractions) are modelled as `ℚ`;
  the controller only ever floors, divides and compares them.
* Engine calls (`Speech.speak/stop/pause/resume`) and progress-callback
  invocations are recorded in an event trace; each operation is a function
  `TTSState → TTSState × List TTSEvent`.  Callback closures of `Speech.speak`
  capture only `startIndex` and `sid`, so the callbacks are modelled as
  functions parameterised by those two values.
* `Platform.OS === 'android'`, success of `Speech.resume()` / `Speech.pause()`
  and `Date.now()` are inputs of the model (`isAndroid`, `resumeOk`,
  `pauseOk`, `now`).
* The `playbackPromise`/`playbackResolve` pair is modelled by a `.resolve`
  event (the controller only ever resolves it; the promise value is unit).
-/

set_option maxRecDepth 4000

namespace Storyspire

/-- JS `\s` on the characters the app actually handles (ASCII whitespace). -/
def isWs (c : Char) : Bool :=
  c = ' ' || c = '\t' || c = '\n' || c = '\r' || c = '\x0b' || c = '\x0c'

/-- Sentence-boundary punctuation of the chunker's split regex `(?<=[.!?])\s+`. -/
def isSentEnd (c : Char) : Bool :=
  c = '.' || c = '!' || c = '?'

/-- One pass of `text.replace(/\s+/g, ' ')`: every maximal whitespace run is
replaced by a single space.  The flag records whether the previous character
was part of a whitespace run already replaced. -/
def squeezeGo : Bool → List Char → List Char
  | _, [] => []
  | prevWs, c :: cs =>
    if isWs c then
      if prevWs then squeezeGo true cs else ' ' :: squeezeGo true cs
    else
      c :: squeezeGo false cs

/-- The full squeeze `text.replace(/\s+/g, ' ')`. -/
def squeezeWs (l : List Char) : List Char := squeezeGo false l

/-- Drop a maximal trailing whitespace run (the right half of `.trim()`). -/
def dropTrailWs : List Char → List Char
  | [] => []
  | c :: cs =>
    let r := dropTrailWs cs
    if r = [] && isWs c then [] else c :: r

/-- JS `String.prototype.trim()`. -/
def trimWs (l : List Char) : List Char :=
  dropTrailWs (l.dropWhile isWs)

/-- Model of `(text || '').replace(/\s+/g, ' ').trim()` — the normalisation performed
at the top of `buildChunks`. -/
def normalizeWs (l : List Char) : List Char :=
  trimWs (squeezeWs l)

/-- Whether a list starts with a whitespace character (the regex lookahead
into `\s+` at a candidate split point). -/
def headIsWs : List Char → Bool
  | d :: _ => isWs d
  | [] => false

/-- Model of `normalized.split(/(?<=[.!?])\s+/)`: split after boundary punctuation at a
whitespace run, consuming the run.  `cur` is the current piece, reversed;
`skipping` is true while we are inside the separator's whitespace run. -/
def splitGo : Bool → List Char → List Char → List (List Char)
  | _, cur, [] => [cur.reverse]
  | skipping, cur, c :: cs =>
    if skipping && isWs c then
      splitGo true cur cs
    else if isSentEnd c && headIsWs cs then
      (c :: cur).reverse :: splitGo true [] cs
    else
      splitGo false (c :: cur) cs

/-- The sentence list of `buildChunks`. -/
def splitSentences (l : List Char) : List (List Char) :=
  splitGo false [] l

def MAX_CHUNK_LEN : Nat := 600

/-- Iteration core of the hard split; the fuel only bounds the number of loop
iterations (each iteration consumes `MAX_CHUNK_LEN ≥ 1` characters, so a fuel
of `s.length` is never exhausted). -/
def hardSlicesGo : Nat → List Char → List (List Char)
  | 0, _ => []
  | _, [] => []
  | fuel + 1, c :: cs =>
    (c :: cs).take MAX_CHUNK_LEN :: hardSlicesGo fuel ((c :: cs).drop MAX_CHUNK_LEN)

/-- Model of the loop `for (let i = 0; i < s.length; i += MAX_CHUNK_LEN) out.push(s.slice(i, i + MAX_CHUNK_LEN))` —
the hard split of an over-long sentence into fixed-size slices. -/
def hardSlices (s : List Char) : List (List Char) :=
  hardSlicesGo s.length s

/-- The sentence-accumulation loop of `buildChunks`; `buf` is the pending
buffer, the returned list is everything still to be pushed to `out`. -/
def chunkLoop : List (List Char) → List Char → List (List Char)
  | [], buf => if buf = [] then [] else [trimWs buf]
  | s :: ss, buf =>
    if MAX_CHUNK_LEN < (trimWs (buf ++ ' ' :: s)).length then
      (if buf = [] then [] else [trimWs buf]) ++
        (if MAX_CHUNK_LEN < s.length then hardSlices s ++ chunkLoop ss []
         else chunkLoop ss s)
    else
      chunkLoop ss (if buf = [] then s else buf ++ ' ' :: s)

/-- The chunker `buildChunks` from `src/services/openrouter.ts`. -/
def buildChunks (text : List Char) : List (List Char) :=
  let normalized := normalizeWs text
  if normalized = [] then [] else chunkLoop (splitSentences normalized) []

/-- Model of `chunkText.split(/\s+/).filter(Boolean)` — whitespace-separated words,
empty pieces dropped.  `cur` is the word being built, reversed. -/
def wordsGo : List Char → List Char → List (List Char)
  | cur, [] => if cur = [] then [] else [cur.reverse]
  | cur, c :: cs =>
    if isWs c then
      if cur = [] then wordsGo [] cs else cur.reverse :: wordsGo [] cs
    else
      wordsGo (c :: cur) cs

def splitWords (l : List Char) : List (List Char) := wordsGo [] l

/-- Joining as in `words.join(' ')`. -/
def joinSp (ws : List (List Char)) : List Char :=
  List.intercalate [' '] ws

/-! ## The narration session controller -/

/-- The `TTSPreferences` record: optional system voice identifier and optional rate. -/
structure TTSPreferences where
  voice : Option String
  rate : Option ℚ
deriving DecidableEq, Repr

/-- The `TTSProgress` record as delivered to the progress callback. -/
structure TTSProgress where
  currentChunk : Nat
  totalChunks : Nat
  progress : ℚ
deriving DecidableEq, Repr

/-- The module-level mutable state of the controller
(`src/services/openrouter.ts`, TTS section, lines 119-133). -/
structure TTSState where
  isPlaying : Bool
  isPaused : Bool
  currentText : List Char
  chunks : List (List Char)
  currentChunkIndex : Nat
  sessionId : Nat
  currentPreferences : TTSPreferences
  chunkStartTime : Option ℚ
  chunkStartPrefs : Option TTSPreferences
  overrideFirstChunk : Option (List Char)
  isInitiatingPlayback : Bool
deriving DecidableEq, Repr

/-- Observable effects of an operation: speech-engine calls, progress-callback
invocations, and resolution of the playback promise.  A `speak` event records
the utterance text together with the `startIndex`/`sid` pair captured by the
registered `onDone`/`onStopped`/`onError` closures. -/
inductive TTSEvent where
  | speak (text : List Char) (startIndex sid : Nat)
  | stop
  | enginePause
  | engineResume
  | progress (p : TTSProgress)
  | resolve
deriving DecidableEq, Repr

/-- Model of `updateProgress()`: invokes the progress callback only when `chunks` is
non-empty. -/
def updateProgress (s : TTSState) : List TTSEvent :=
  if 0 < s.chunks.length then
    [.progress ⟨s.currentChunkIndex + 1, s.chunks.length,
      (s.currentChunkIndex + 1 : ℚ) / (s.chunks.length : ℚ)⟩]
  else []

/-- The utterance texts of a trace, with the index/session captured by their
callbacks — the calls made to `Speech.speak`. -/
def speakCalls : List TTSEvent → List (List Char × Nat × Nat)
  | [] => []
  | .speak t i sid :: es => (t, i, sid) :: speakCalls es
  | _ :: es => speakCalls es

/-- Model of `speakChunkChain(startIndex, sid)`: issues at most one `Speech.speak` call;
continuation happens through the `onDone` callback.  `now` is `Date.now()`. -/
def speakChunkChain (startIndex sid : Nat) (now : ℚ) (s : TTSState) :
    TTSState × List TTSEvent :=
  if sid ≠ s.sessionId then (s, [])
  else if s.chunks.length ≤ startIndex then
    let s' := { s with isPlaying := false, isPaused := false, currentChunkIndex := 0 }
    (s', updateProgress s' ++ [.resolve])
  else
    let s1 := { s with currentChunkIndex := startIndex, isPlaying := true, isPaused := false }
    let ev1 := updateProgress s1
    -- `let textToSpeak = chunks[startIndex] || ''` with the override
    -- consumption `if (overrideFirstChunk && startIndex === currentChunkIndex)`
    let base := s1.chunks.getD startIndex []
    let useOverride : Bool :=
      match s1.overrideFirstChunk with
      | some o => !o.isEmpty && startIndex == s1.currentChunkIndex
      | none => false
    let textToSpeak := if useOverride then s1.overrideFirstChunk.getD [] else base
    let s2 := if useOverride then { s1 with overrideFirstChunk := none } else s1
    if trimWs textToSpeak = [] then
      -- safety check: nothing to speak, warn and return without speaking
      (s2, ev1)
    else
      let s3 := { s2 with chunkStartTime := some now,
                          chunkStartPrefs := some s2.currentPreferences }
      (s3, ev1 ++ [.speak textToSpeak startIndex sid])

/-- The state reset performed when the chain runs off the end of `chunks`
(also used by the terminal callbacks). -/
def finishPlayback (s : TTSState) : TTSState × List TTSEvent :=
  let s' := { s with isPlaying := false, isPaused := false, currentChunkIndex := 0 }
  (s', updateProgress s' ++ [.resolve])

/-- The `onDone` callback registered for chunk `startIndex` of session `sid`. -/
def onDone (startIndex sid : Nat) (now : ℚ) (s : TTSState) :
    TTSState × List TTSEvent :=
  if sid ≠ s.sessionId then (s, [])
  else if s.isPaused then (s, [])
  else
    let s1 := { s with chunkStartTime := none, chunkStartPrefs := none }
    if startIndex + 1 < s1.chunks.length then
      speakChunkChain (startIndex + 1) sid now s1
    else
      finishPlayback s1

/-- The `onStopped` callback registered for chunk `startIndex` of session `sid`. -/
def onStopped (sid : Nat) (s : TTSState) : TTSState × List TTSEvent :=
  if sid ≠ s.sessionId then (s, [])
  else
    let s1 := { s with isPlaying := false, chunkStartTime := none, chunkStartPrefs := none }
    if ¬ s1.isPaused then (s1, updateProgress s1 ++ [.resolve]) else (s1, [])

/-- The `onError` callback registered for chunk `startIndex` of session `sid`. -/
def onError (sid : Nat) (s : TTSState) : TTSState × List TTSEvent :=
  if sid ≠ s.sessionId then (s, [])
  else
    let s1 := { s with isPlaying := false, chunkStartTime := none, chunkStartPrefs := none }
    (s1, updateProgress s1 ++ [.resolve])

/-- Model of `resumeSpeech(...)`.  Here `isAndroid` models `Platform.OS === 'android'`;
`resumeOk` models whether the engine-level `Speech.resume()` call succeeds. -/
def resumeSpeech (isAndroid resumeOk : Bool) (now : ℚ) (s : TTSState) :
    TTSState × List TTSEvent :=
  if s.isInitiatingPlayback then (s, [])
  else if s.currentText = [] ∨ s.chunks = [] then (s, [])
  else
    let sA := { s with isInitiatingPlayback := true }
    let resumeChunkIndex := sA.currentChunkIndex
    let s1 := { sA with isPaused := false, isPlaying := true }
    if ¬ isAndroid ∧ resumeOk then
      ({ s1 with isInitiatingPlayback := false },
        [.stop, .engineResume] ++ updateProgress s1)
    else
      let (s2, e2) := speakChunkChain resumeChunkIndex s1.sessionId now s1
      ({ s2 with isInitiatingPlayback := false }, .stop :: e2)

/-- Model of `speakText(text, preferences)`. -/
def speakText (text : List Char) (preferences : Option TTSPreferences)
    (isAndroid resumeOk : Bool) (now : ℚ) (s : TTSState) :
    TTSState × List TTSEvent :=
  if s.isInitiatingPlayback then (s, [])
  else
    let sA := { s with isInitiatingPlayback := true }
    if sA.isPaused ∧ sA.currentText = text then
      -- delegate to resumeSpeech() (whose own guard sees the flag)
      let (sB, e) := resumeSpeech isAndroid resumeOk now sA
      ({ sB with isInitiatingPlayback := false }, e)
    else if sA.currentText = text ∧ sA.chunks ≠ [] then
      -- same text: reuse chunks, restart from the beginning
      let sB := { sA with
        currentPreferences := preferences.getD sA.currentPreferences,
        currentChunkIndex := 0, isPaused := false, sessionId := sA.sessionId + 1 }
      let stopEvs := if sB.isPlaying then [TTSEvent.stop] else []
      let (sC, e) := speakChunkChain 0 sB.sessionId now sB
      ({ sC with isInitiatingPlayback := false }, stopEvs ++ e)
    else
      -- new text: generate chunks once
      let sB := { sA with
        currentText := text, chunks := buildChunks text,
        currentChunkIndex := 0, isPaused := false, sessionId := sA.sessionId + 1,
        currentPreferences := preferences.getD sA.currentPreferences }
      let stopEvs := if sB.isPlaying then [TTSEvent.stop] else []
      let (sC, e) := speakChunkChain 0 sB.sessionId now sB
      ({ sC with isInitiatingPlayback := false }, stopEvs ++ e)

/-- Model of `pauseSpeech()`.  Here `pauseOk` models whether the engine-level
`Speech.pause()` call succeeds (on failure the catch issues `Speech.stop()`). -/
def pauseSpeech (isAndroid pauseOk : Bool) (s : TTSState) :
    TTSState × List TTSEvent :=
  let s1 := { s with isPaused := true, isPlaying := false }
  let engineEvs :=
    if ¬ isAndroid then
      if pauseOk then [TTSEvent.enginePause] else [TTSEvent.stop]
    else [TTSEvent.stop]
  (s1, engineEvs ++ updateProgress s1)

/-- Model of `restartSpeech(text, preferences)`. -/
def restartSpeech (text : List Char) (preferences : Option TTSPreferences)
    (now : ℚ) (s : TTSState) : TTSState × List TTSEvent :=
  if s.isInitiatingPlayback then (s, [])
  else
    let sB := { s with
      isInitiatingPlayback := true,
      currentText := text, chunks := buildChunks text,
      currentChunkIndex := 0, isPaused := false, sessionId := s.sessionId + 1,
      currentPreferences := preferences.getD s.currentPreferences }
    let (sC, e) := speakChunkChain 0 sB.sessionId now sB
    ({ sC with isInitiatingPlayback := false }, .stop :: e)

/-- Model of `seekToChunk(chunkIndex)`.  The index is an `Int` so that the negative
out-of-range case of the source is representable. -/
def seekToChunk (chunkIndex : ℤ) (now : ℚ) (s : TTSState) :
    TTSState × List TTSEvent :=
  if s.currentText = [] ∨ s.chunks = [] then (s, [])
  else if chunkIndex < 0 ∨ (s.chunks.length : ℤ) ≤ chunkIndex then (s, [])
  else
    let wasPlaying := s.isPlaying
    let wasPaused := s.isPaused
    let s1 := { s with currentChunkIndex := chunkIndex.toNat,
                       isPaused := false, sessionId := s.sessionId + 1 }
    if wasPlaying ∨ wasPaused then
      let (s2, e2) := speakChunkChain chunkIndex.toNat s1.sessionId now s1
      (s2, .stop :: (updateProgress s1 ++ e2))
    else
      (s1, .stop :: updateProgress s1)

/-- Model of `setPreferences(preferences)`: live preference change with resume-offset
estimation (`baseWps = 3`, `wordsSpoken = floor(elapsedSec * baseWps * rate)`). -/
def setPreferences (preferences : TTSPreferences) (now : ℚ) (s : TTSState) :
    TTSState × List TTSEvent :=
  let s1 := { s with currentPreferences := preferences }
  if ¬ s1.isPlaying ∧ ¬ s1.isPaused then (s1, [])
  else
    let chunkText := s1.chunks.getD s1.currentChunkIndex []
    let s2 :=
      match s1.chunkStartTime, s1.chunkStartPrefs with
      | some t0, some p0 =>
        if t0 ≠ 0 ∧ chunkText ≠ [] then
          let elapsedMs := max 0 (now - t0)
          let elapsedSec := elapsedMs / 1000
          let words := splitWords chunkText
          let totalWords := if words.length = 0 then 1 else words.length
          let wordsPerSec := 3 * p0.rate.getD 1
          let wordsSpoken : ℤ := ⌊elapsedSec * wordsPerSec⌋
          if (totalWords : ℤ) ≤ wordsSpoken then
            let advanced := min (s1.currentChunkIndex + 1) (s1.chunks.length - 1)
            { s1 with currentChunkIndex := advanced }
          else if 0 < wordsSpoken then
            let remainingText := trimWs (joinSp (words.drop wordsSpoken.toNat))
            if remainingText ≠ [] then
              { s1 with overrideFirstChunk := some remainingText }
            else s1
          else s1
        else s1
      | _, _ => s1
    let s3 := { s2 with sessionId := s2.sessionId + 1 }
    let (s4, e4) := speakChunkChain s3.currentChunkIndex s3.sessionId now s3
    (s4, .stop :: e4)

/-! ## Auxiliary predicates used by the specification theorems -/

/-- The first character, if any, is not whitespace. -/
def HeadNonWs (l : List Char) : Prop := ∀ c, l.head? = some c → isWs c = false

/-- The last character, if any, is not whitespace. -/
def LastNonWs (l : List Char) : Prop := ∀ c, l.getLast? = some c → isWs c = false

/-- No two adjacent whitespace characters. -/
def NoAdjWs : List Char → Prop
  | [] => True
  | a :: rest => (∀ b, rest.head? = some b → ¬(isWs a = true ∧ isWs b = true)) ∧ NoAdjWs rest

/-- Every whitespace character is a plain space. -/
def WsIsSp (l : List Char) : Prop := ∀ c ∈ l, isWs c = true → c = ' '

/-- The shape of a whitespace-normalised string: no leading or trailing
whitespace, no two adjacent whitespace characters, and all whitespace is a
single space. -/
def NormalShape (l : List Char) : Prop :=
  HeadNonWs l ∧ LastNonWs l ∧ NoAdjWs l ∧ WsIsSp l

/-- Concatenation with a single separating space, ignoring empty sides (used
to state what the accumulation loop of `buildChunks` preserves). -/
def spCat (a b : List Char) : List Char :=
  if a = [] then b else if b = [] then a else a ++ ' ' :: b

/-- The state invariant of the controller: the chunk cursor stays inside
`chunks` whenever `chunks` is non-empty (claim C10). -/
def Inv (s : TTSState) : Prop :=
  s.chunks ≠ [] → s.currentChunkIndex < s.chunks.length

/-- A progress-callback invocation is well-formed: one-based chunk number in
`[1, totalChunks]` and fraction in `[0, 1]`. -/
def GoodProgress : TTSEvent → Prop
  | .progress p => 1 ≤ p.currentChunk ∧ p.currentChunk ≤ p.totalChunks ∧
      0 ≤ p.progress ∧ p.progress ≤ 1
  | _ => True

/-! ## Concrete inputs used by counterexamples and witnesses -/

/-- A single 601-character sentence with no boundary punctuation: it is
hard-split mid-word. -/
def exLong601 : List Char := List.replicate 601 'a'

/-- A single 1201-character sentence whose only space sits exactly at the
first hard-split boundary, so the second slice starts with a space. -/
def exMixed1201 : List Char :=
  List.replicate 600 'a' ++ ' ' :: List.replicate 600 'b'

/-- The 1500-character punctuation-free sentence of the specification's
max-length test. -/
def exLong1500 : List Char := List.replicate 1500 'a'

/-- A small two-sentence text used to witness the chunk round-trip. -/
def exShortText : List Char := ("Hi there. Bye.").data

/-- Preferences used by the concrete witness states (rate 1.0). -/
def wPrefs : TTSPreferences := ⟨none, some 1⟩

/-- A three-chunk session used by the concrete witness states. -/
def wChunks : List (List Char) := [("One.").data, ("Two.").data, ("Three.").data]

def wText : List Char := ("One. Two. Three.").data

/-- A session playing chunk 1 of 3. -/
def wState : TTSState :=
  ⟨true, false, wText, wChunks, 1, 5, wPrefs, some 1000, some wPrefs, none, false⟩

/-- The same session, paused. -/
def wPaused : TTSState := { wState with isPlaying := false, isPaused := true }

/-- The witness session with the re-entrancy flag held. -/
def wBusy : TTSState := { wState with isInitiatingPlayback := true }

/-- A session playing a single two-word chunk (for the preference-change
clamping counterexample). -/
def exC5state : TTSState :=
  ⟨true, false, ("one two").data, [("one two").data], 0, 5, wPrefs,
    some 1000, some wPrefs, none, false⟩

/-- A session playing a single ten-word chunk (for the live speed-change
witness). -/
def exC5ten : TTSState :=
  ⟨true, false, ("w1 w2 w3 w4 w5 w6 w7 w8 w9 w10").data,
    [("w1 w2 w3 w4 w5 w6 w7 w8 w9 w10").data], 0, 5, wPrefs,
    some 1000, some wPrefs, none, false⟩

/-! ## Chunker lemmas: trimming -/

theorem dropTrailWs_eq_self (l : List Char) (h : LastNonWs l) : dropTrailWs l = l := by
  induction l with
  | nil => rfl
  | cons c cs ih =>
    cases cs with
    | nil =>
      have hc : isWs c = false := h c rfl
      simp [dropTrailWs, hc]
    | cons d ds =>
      have hcs : dropTrailWs (d :: ds) = d :: ds := by
        apply ih
        intro x hx
        apply h
        rw [List.getLast?_cons_cons]
        exact hx
      show (if (decide (dropTrailWs (d :: ds) = []) && isWs c) = true then []
          else c :: dropTrailWs (d :: ds)) = c :: d :: ds
      rw [hcs]
      simp

theorem dropWhile_ws_eq_self (l : List Char) (h : HeadNonWs l) :
    l.dropWhile isWs = l := by
  cases l with
  | nil => rfl
  | cons c cs =>
    have hc : isWs c = false := h c rfl
    simp [List.dropWhile_cons, hc]

theorem trimWs_eq_self (l : List Char) (h1 : HeadNonWs l) (h2 : LastNonWs l) :
    trimWs l = l := by
  unfold trimWs
  rw [dropWhile_ws_eq_self l h1, dropTrailWs_eq_self l h2]

theorem dropTrailWs_length_le (l : List Char) : (dropTrailWs l).length ≤ l.length := by
  induction l with
  | nil => simp [dropTrailWs]
  | cons c cs ih =>
    by_cases h : dropTrailWs cs = [] ∧ isWs c = true
    · simp [dropTrailWs, h]
    · simp only [dropTrailWs]
      rw [if_neg (by simpa using h)]
      simpa using ih

theorem dropWhile_length_le (p : Char → Bool) (l : List Char) :
    (l.dropWhile p).length ≤ l.length := by
  induction l with
  | nil => simp
  | cons c cs ih =>
    rw [List.dropWhile_cons]
    by_cases h : p c = true
    · rw [if_pos h]; exact Nat.le_succ_of_le ih
    · rw [if_neg (by simpa using h)]

theorem trimWs_length_le (l : List Char) : (trimWs l).length ≤ l.length :=
  le_trans (dropTrailWs_length_le _) (dropWhile_length_le _ _)

theorem trimWs_ws_cons (c : Char) (l : List Char) (h : isWs c = true) :
    trimWs (c :: l) = trimWs l := by
  unfold trimWs
  rw [List.dropWhile_cons, if_pos h]

theorem dropTrailWs_ne_nil (l : List Char) (c : Char) (hc : isWs c = false) :
    dropTrailWs (c :: l) ≠ [] := by
  simp only [dropTrailWs, hc]
  split <;> simp_all

theorem trimWs_ne_nil (l : List Char) (h1 : HeadNonWs l) (h2 : l ≠ []) :
    trimWs l ≠ [] := by
  cases l with
  | nil => exact absurd rfl h2
  | cons c cs =>
    have hc : isWs c = false := h1 c rfl
    unfold trimWs
    rw [List.dropWhile_cons, if_neg (by simp [hc])]
    exact dropTrailWs_ne_nil cs c hc

/-! ## Chunker lemmas: shape of the normalised text -/

theorem squeezeGo_wsSp : ∀ (b : Bool) (l : List Char), WsIsSp (squeezeGo b l) := by
  intro b l
  induction l generalizing b with
  | nil => intro c hc; simp [squeezeGo] at hc
  | cons c cs ih =>
    intro x hx hws
    by_cases h : isWs c = true
    · cases b with
      | true => exact ih true x (by simpa [squeezeGo, h] using hx) hws
      | false =>
        simp only [squeezeGo, h, if_pos, if_true] at hx
        rcases List.mem_cons.mp hx with h1 | h1
        · exact h1
        · exact ih true x h1 hws
    · simp only [squeezeGo, h] at hx
      rw [if_neg (by simp [h])] at hx
      rcases List.mem_cons.mp hx with h1 | h1
      · subst h1; exact absurd hws (by simp [h])
      · exact ih false x h1 hws

theorem squeezeGo_true_head (l : List Char) :
    HeadNonWs (squeezeGo true l) := by
  induction l with
  | nil => intro c hc; simp [squeezeGo] at hc
  | cons c cs ih =>
    intro x hx
    by_cases h : isWs c = true
    · exact ih x (by simpa [squeezeGo, h] using hx)
    · simp only [squeezeGo, h] at hx
      rw [if_neg (by simp [h])] at hx
      simp only [List.head?_cons, Option.some.injEq] at hx
      subst hx
      simpa using h

theorem squeezeGo_noAdj : ∀ (b : Bool) (l : List Char), NoAdjWs (squeezeGo b l) := by
  intro b l
  induction l generalizing b with
  | nil => simp [squeezeGo, NoAdjWs]
  | cons c cs ih =>
    by_cases h : isWs c = true
    · cases b with
      | true => simpa [squeezeGo, h] using ih true
      | false =>
        simp only [squeezeGo, h, if_true]
        refine ⟨?_, ih true⟩
        intro b hb hcon
        exact absurd (squeezeGo_true_head cs b hb) (by simp [hcon.2])
    · simp only [squeezeGo, h]
      rw [if_neg (by simp [h])]
      refine ⟨?_, ih false⟩
      intro b _ hcon
      exact absurd hcon.1 (by simp [h])

theorem noAdjWs_tail (c : Char) (l : List Char) (h : NoAdjWs (c :: l)) : NoAdjWs l :=
  h.2

theorem noAdjWs_dropWhile (l : List Char) (h : NoAdjWs l) :
    NoAdjWs (l.dropWhile isWs) := by
  induction l with
  | nil => simpa using h
  | cons c cs ih =>
    rw [List.dropWhile_cons]
    by_cases hc : isWs c = true
    · rw [if_pos hc]; exact ih h.2
    · rw [if_neg (by simpa using hc)]; exact h

theorem dropTrailWs_head? (l : List Char) (h : dropTrailWs l ≠ []) :
    (dropTrailWs l).head? = l.head? := by
  cases l with
  | nil => simp [dropTrailWs] at h
  | cons c cs =>
    by_cases hc : dropTrailWs cs = [] ∧ isWs c = true
    · exact absurd (by simp [dropTrailWs, hc.1, hc.2]) h
    · show (if (decide (dropTrailWs cs = []) && isWs c) = true then ([] : List Char)
          else c :: dropTrailWs cs).head? = _
      rw [if_neg (by simpa using hc)]
      simp

theorem noAdjWs_dropTrail (l : List Char) (h : NoAdjWs l) :
    NoAdjWs (dropTrailWs l) := by
  induction l with
  | nil => simpa [dropTrailWs] using h
  | cons c cs ih =>
    by_cases hc : dropTrailWs cs = [] ∧ isWs c = true
    · simp [dropTrailWs, hc.1, hc.2, NoAdjWs]
    · show NoAdjWs (if (decide (dropTrailWs cs = []) && isWs c) = true then []
        else c :: dropTrailWs cs)
      rw [if_neg (by simpa using hc)]
      refine ⟨?_, ih h.2⟩
      intro b hb hcon
      have hne : dropTrailWs cs ≠ [] := by
        intro hnil
        rw [hnil] at hb
        simp at hb
      rw [dropTrailWs_head? cs hne] at hb
      exact h.1 b hb hcon

theorem wsSp_dropWhile (l : List Char) (h : WsIsSp l) :
    WsIsSp (l.dropWhile isWs) := by
  intro c hc
  exact h c ((List.dropWhile_sublist _).mem hc)

theorem dropTrailWs_sublist (l : List Char) : (dropTrailWs l).Sublist l := by
  induction l with
  | nil => simp [dropTrailWs]
  | cons c cs ih =>
    by_cases hc : dropTrailWs cs = [] ∧ isWs c = true
    · simp [dropTrailWs, hc.1, hc.2]
    · show List.Sublist (if (decide (dropTrailWs cs = []) && isWs c) = true then []
        else c :: dropTrailWs cs) (c :: cs)
      rw [if_neg (by simpa using hc)]
      exact List.Sublist.cons₂ c ih

theorem wsSp_dropTrail (l : List Char) (h : WsIsSp l) :
    WsIsSp (dropTrailWs l) := by
  intro c hc
  exact h c ((dropTrailWs_sublist l).mem hc)

theorem headNonWs_dropWhile (l : List Char) : HeadNonWs (l.dropWhile isWs) := by
  induction l with
  | nil => intro c hc; simp at hc
  | cons c cs ih =>
    rw [List.dropWhile_cons]
    by_cases hc : isWs c = true
    · rw [if_pos hc]; exact ih
    · rw [if_neg (by simpa using hc)]
      intro x hx
      simp only [List.head?_cons, Option.some.injEq] at hx
      subst hx
      simpa using hc

theorem lastNonWs_dropTrail (l : List Char) : LastNonWs (dropTrailWs l) := by
  induction l with
  | nil => intro c hc; simp [dropTrailWs] at hc
  | cons c cs ih =>
    by_cases hc : dropTrailWs cs = [] ∧ isWs c = true
    · intro x hx; simp [dropTrailWs, hc.1, hc.2] at hx
    · intro x hx
      rw [show dropTrailWs (c :: cs) = (if (decide (dropTrailWs cs = []) && isWs c) = true
          then [] else c :: dropTrailWs cs) from rfl, if_neg (by simpa using hc)] at hx
      by_cases hnil : dropTrailWs cs = []
      · rw [hnil] at hx
        simp only [List.getLast?_singleton, Option.some.injEq] at hx
        subst hx
        simpa [hnil] using hc
      · cases hr : dropTrailWs cs with
        | nil => exact absurd hr hnil
        | cons d ds =>
          rw [hr, List.getLast?_cons_cons] at hx
          exact ih x (by rw [hr]; exact hx)

theorem headNonWs_trimWs (l : List Char) : HeadNonWs (trimWs l) := by
  unfold trimWs
  intro c hc
  have hne : dropTrailWs (l.dropWhile isWs) ≠ [] := by
    intro hnil
    rw [hnil] at hc
    simp at hc
  rw [dropTrailWs_head? _ hne] at hc
  exact headNonWs_dropWhile l c hc

theorem normalizeWs_shape (l : List Char) : NormalShape (normalizeWs l) := by
  refine ⟨headNonWs_trimWs _, lastNonWs_dropTrail _, ?_, ?_⟩
  · exact noAdjWs_dropTrail _ (noAdjWs_dropWhile _ (squeezeGo_noAdj false l))
  · exact wsSp_dropTrail _ (wsSp_dropWhile _ (squeezeGo_wsSp false l))

/-! ## Chunker lemmas: the sentence split -/

theorem isSentEnd_not_ws (c : Char) (h : isSentEnd c = true) : isWs c = false := by
  simp only [isSentEnd, Bool.or_eq_true, decide_eq_true_eq] at h
  rcases h with (h | h) | h <;> subst h <;> decide

theorem lastNonWs_nil : LastNonWs [] := by
  intro c hc
  simp at hc

theorem lastNonWs_tail (c : Char) (l : List Char) (h : LastNonWs (c :: l))
    (hne : l ≠ []) : LastNonWs l := by
  intro x hx
  apply h
  cases l with
  | nil => exact absurd rfl hne
  | cons d ds => rw [List.getLast?_cons_cons]; exact hx

theorem wsSp_tail (c : Char) (l : List Char) (h : WsIsSp (c :: l)) : WsIsSp l := by
  intro x hx
  exact h x (List.mem_cons_of_mem c hx)

theorem joinSp_nil : joinSp [] = [] := rfl

theorem joinSp_single (a : List Char) : joinSp [a] = a := by
  simp [joinSp, List.intercalate]

theorem joinSp_cons (a : List Char) (bs : List (List Char)) (h : bs ≠ []) :
    joinSp (a :: bs) = a ++ ' ' :: joinSp bs := by
  cases bs with
  | nil => exact absurd rfl h
  | cons b bs' => simp [joinSp, List.intercalate, List.intersperse]

theorem splitGo_ne_nil : ∀ (sk : Bool) (cur l : List Char), splitGo sk cur l ≠ [] := by
  intro sk cur l
  induction l generalizing sk cur with
  | nil => simp [splitGo]
  | cons c cs ih =>
    show (if (sk && isWs c) = true then splitGo true cur cs
      else if (isSentEnd c && headIsWs cs) = true then (c :: cur).reverse :: splitGo true [] cs
      else splitGo false (c :: cur) cs) ≠ []
    split
    · exact ih true cur
    · split
      · simp
      · exact ih false (c :: cur)

theorem splitGo_false_cons (cur : List Char) (c : Char) (cs : List Char) :
    splitGo false cur (c :: cs) =
      if (isSentEnd c && headIsWs cs) = true then
        (c :: cur).reverse :: splitGo true [] cs
      else splitGo false (c :: cur) cs := by
  simp [splitGo]

theorem splitGo_true_cons_ws (cur : List Char) (c : Char) (cs : List Char)
    (h : isWs c = true) : splitGo true cur (c :: cs) = splitGo true cur cs := by
  simp [splitGo, h]

theorem splitGo_skip_eq (cur : List Char) (c : Char) (cs : List Char)
    (h : isWs c = false) : splitGo true cur (c :: cs) = splitGo false cur (c :: cs) := by
  simp [splitGo, h]

/-- On normalised text, joining the sentence pieces with single spaces
reconstructs the text: every separator consumed by the split was exactly one
space. -/
theorem splitGo_join : ∀ (n : Nat) (l cur : List Char), l.length ≤ n →
    WsIsSp l → NoAdjWs l → LastNonWs l →
    joinSp (splitGo false cur l) = cur.reverse ++ l := by
  intro n
  induction n with
  | zero =>
    intro l cur hlen _ _ _
    have hl : l = [] := List.length_eq_zero.mp (Nat.le_zero.mp hlen)
    subst hl
    simp [splitGo, joinSp_single]
  | succ n ih =>
    intro l cur hlen hws hadj hlast
    cases l with
    | nil => simp [splitGo, joinSp_single]
    | cons c cs =>
      rw [splitGo_false_cons]
      by_cases hsplit : (isSentEnd c && headIsWs cs) = true
      · rw [if_pos hsplit]
        cases cs with
        | nil => simp [headIsWs] at hsplit
        | cons d cs' =>
          have hd : isWs d = true := by
            have := (Bool.and_eq_true _ _).mp hsplit
            simpa [headIsWs] using this.2
          have hdsp : d = ' ' := hws d (by simp) hd
          cases cs' with
          | nil =>
            have : isWs d = false := hlast d (by simp)
            rw [this] at hd
            exact absurd hd (by simp)
          | cons e cs'' =>
            have he : isWs e = false := by
              by_contra hcon
              exact hadj.2.1 e rfl ⟨hd, by simpa using hcon⟩
            rw [splitGo_true_cons_ws _ _ _ hd, splitGo_skip_eq _ _ _ he,
              joinSp_cons _ _ (splitGo_ne_nil false [] (e :: cs''))]
            rw [ih (e :: cs'') [] (by simp at hlen ⊢; omega)
              (wsSp_tail _ _ (wsSp_tail _ _ hws))
              (noAdjWs_tail _ _ (noAdjWs_tail _ _ hadj))
              (lastNonWs_tail _ _ (lastNonWs_tail _ _ hlast (by simp)) (by simp))]
            simp [hdsp]
      · rw [if_neg hsplit]
        have hlast' : LastNonWs cs := by
          cases cs with
          | nil => exact lastNonWs_nil
          | cons d ds => exact lastNonWs_tail _ _ hlast (by simp)
        rw [ih cs (c :: cur) (by simpa using hlen) (wsSp_tail _ _ hws)
          (noAdjWs_tail _ _ hadj) hlast']
        simp

/-- Taking `head?` of an append only sees the first element after the append point. -/
theorem head?_append_cons (a : List Char) (c : Char) (t t' : List Char) :
    (a ++ c :: t).head? = (a ++ c :: t').head? := by
  cases a <;> simp

/-- On non-empty normalised text every sentence piece is non-empty and has
non-whitespace first and last characters. -/
theorem splitGo_pieces : ∀ (n : Nat) (l cur : List Char), l.length ≤ n →
    WsIsSp l → NoAdjWs l → LastNonWs l →
    (cur.reverse ++ l ≠ []) → HeadNonWs (cur.reverse ++ l) →
    (l = [] → ∀ c, cur.head? = some c → isWs c = false) →
    ∀ p ∈ splitGo false cur l, p ≠ [] ∧ HeadNonWs p ∧ LastNonWs p := by
  intro n
  induction n with
  | zero =>
    intro l cur hlen _ _ _ hne hhead hcurlast p hp
    have hl : l = [] := List.length_eq_zero.mp (Nat.le_zero.mp hlen)
    subst hl
    simp only [splitGo, List.mem_singleton] at hp
    subst hp
    refine ⟨by simpa using hne, by simpa using hhead, ?_⟩
    intro x hx
    rw [List.getLast?_reverse] at hx
    exact hcurlast rfl x hx
  | succ n ih =>
    intro l cur hlen hws hadj hlast hne hhead hcurlast p hp
    cases l with
    | nil =>
      simp only [splitGo, List.mem_singleton] at hp
      subst hp
      refine ⟨by simpa using hne, by simpa using hhead, ?_⟩
      intro x hx
      rw [List.getLast?_reverse] at hx
      exact hcurlast rfl x hx
    | cons c cs =>
      rw [splitGo_false_cons] at hp
      by_cases hsplit : (isSentEnd c && headIsWs cs) = true
      · rw [if_pos hsplit] at hp
        have hcse : isSentEnd c = true := ((Bool.and_eq_true _ _).mp hsplit).1
        have hcnw : isWs c = false := isSentEnd_not_ws c hcse
        rcases List.mem_cons.mp hp with hp1 | hp2
        · subst hp1
          refine ⟨by simp, ?_, ?_⟩
          · intro x hx
            apply hhead x
            rw [List.reverse_cons] at hx
            rw [head?_append_cons cur.reverse c cs []]
            exact hx
          · intro x hx
            rw [List.reverse_cons,
              List.getLast?_append_of_ne_nil cur.reverse (by simp : ([c] : List Char) ≠ [])] at hx
            simp only [List.getLast?_singleton, Option.some.injEq] at hx
            subst hx
            exact hcnw
        · cases cs with
          | nil => simp [headIsWs] at hsplit
          | cons d cs' =>
            have hd : isWs d = true := by
              have := (Bool.and_eq_true _ _).mp hsplit
              simpa [headIsWs] using this.2
            cases cs' with
            | nil =>
              have : isWs d = false := hlast d (by simp)
              rw [this] at hd
              exact absurd hd (by simp)
            | cons e cs'' =>
              have he : isWs e = false := by
                by_contra hcon
                exact hadj.2.1 e rfl ⟨hd, by simpa using hcon⟩
              rw [splitGo_true_cons_ws _ _ _ hd, splitGo_skip_eq _ _ _ he] at hp2
              refine ih (e :: cs'') [] (by simp at hlen ⊢; omega)
                (wsSp_tail _ _ (wsSp_tail _ _ hws))
                (noAdjWs_tail _ _ (noAdjWs_tail _ _ hadj))
                (lastNonWs_tail _ _ (lastNonWs_tail _ _ hlast (by simp)) (by simp))
                (by simp) ?_ (by simp) p hp2
              intro x hx
              simp only [List.reverse_nil, List.nil_append, List.head?_cons,
                Option.some.injEq] at hx
              subst hx
              exact he
      · rw [if_neg hsplit] at hp
        have hlast' : LastNonWs cs := by
          cases cs with
          | nil => exact lastNonWs_nil
          | cons d ds => exact lastNonWs_tail _ _ hlast (by simp)
        refine ih cs (c :: cur) (by simpa using hlen) (wsSp_tail _ _ hws)
          (noAdjWs_tail _ _ hadj) hlast' (by simp) ?_ ?_ p hp
        · rw [show (c :: cur).reverse ++ cs = cur.reverse ++ c :: cs by simp]
          exact hhead
        · intro hcs x hx
          subst hcs
          simp only [List.head?_cons, Option.some.injEq] at hx
          subst hx
          exact hlast c (by simp)

/-! ## Chunker lemmas: the accumulation loop -/

theorem headNonWs_append (a x : List Char) (ha : a ≠ []) (h : HeadNonWs a) :
    HeadNonWs (a ++ x) := by
  intro c hc
  cases a with
  | nil => exact absurd rfl ha
  | cons y ys =>
    simp only [List.cons_append, List.head?_cons, Option.some.injEq] at hc
    subst hc
    exact h y rfl

theorem lastNonWs_append_cons (a s : List Char) (hs : s ≠ []) (h : LastNonWs s) :
    LastNonWs (a ++ ' ' :: s) := by
  intro c hc
  rw [List.getLast?_append_of_ne_nil a (by simp)] at hc
  cases s with
  | nil => exact absurd rfl hs
  | cons d ds =>
    rw [List.getLast?_cons_cons] at hc
    exact h c hc

theorem chunkLoop_nil (buf : List Char) :
    chunkLoop [] buf = if buf = [] then [] else [trimWs buf] := rfl

theorem chunkLoop_cons (s : List Char) (ss : List (List Char)) (buf : List Char) :
    chunkLoop (s :: ss) buf =
      if MAX_CHUNK_LEN < (trimWs (buf ++ ' ' :: s)).length then
        (if buf = [] then [] else [trimWs buf]) ++
          (if MAX_CHUNK_LEN < s.length then hardSlices s ++ chunkLoop ss []
           else chunkLoop ss s)
      else chunkLoop ss (if buf = [] then s else buf ++ ' ' :: s) := rfl

theorem chunkLoop_ne_nil : ∀ (ss : List (List Char)) (buf : List Char),
    buf ≠ [] → chunkLoop ss buf ≠ [] := by
  intro ss
  induction ss with
  | nil =>
    intro buf hbuf
    rw [chunkLoop_nil, if_neg hbuf]
    simp
  | cons s ss ih =>
    intro buf hbuf
    rw [chunkLoop_cons]
    by_cases hcond : MAX_CHUNK_LEN < (trimWs (buf ++ ' ' :: s)).length
    · rw [if_pos hcond, if_neg hbuf]
      simp
    · rw [if_neg hcond, if_neg hbuf]
      exact ih (buf ++ ' ' :: s) (by simp)

theorem joinSp_ne_nil (ss : List (List Char)) (h1 : ss ≠ [])
    (h2 : ∀ p ∈ ss, p ≠ []) : joinSp ss ≠ [] := by
  cases ss with
  | nil => exact absurd rfl h1
  | cons s ss' =>
    cases ss' with
    | nil => rw [joinSp_single]; exact h2 s (by simp)
    | cons t ts =>
      rw [joinSp_cons _ _ (by simp)]
      have := h2 s (by simp)
      intro hcon
      rw [List.append_eq_nil] at hcon
      exact this hcon.1

theorem joinSp_cons_eq_spCat (s : List Char) (ss : List (List Char))
    (hs : s ≠ []) (hss : ∀ p ∈ ss, p ≠ []) :
    joinSp (s :: ss) = spCat s (joinSp ss) := by
  cases ss with
  | nil => rw [joinSp_single]; simp [joinSp_nil, spCat, hs]
  | cons t ts =>
    rw [joinSp_cons _ _ (by simp)]
    have hj : joinSp (t :: ts) ≠ [] := joinSp_ne_nil _ (by simp) hss
    simp [spCat, hs, hj]

theorem spCat_ne_nil_left (a b : List Char) (ha : a ≠ []) : spCat a b ≠ [] := by
  by_cases hb : b = []
  · simp [spCat, ha, hb]
  · simp [spCat, ha, hb]

theorem spCat_nil_left (b : List Char) : spCat [] b = b := by
  simp [spCat]

theorem spCat_nil_right (a : List Char) : spCat a [] = a := by
  by_cases ha : a = []
  · simp [spCat, ha]
  · simp [spCat, ha]

theorem spCat_eq_append (a b : List Char) (ha : a ≠ []) (hb : b ≠ []) :
    spCat a b = a ++ ' ' :: b := by
  simp [spCat, ha, hb]

/-- The sentence-accumulation loop joins consecutive sentences with single
spaces: its output, re-joined with spaces, is the pending buffer followed by
the remaining sentences (no hard split occurs because every sentence fits in
`MAX_CHUNK_LEN`). -/
theorem chunkLoop_join : ∀ (ss : List (List Char)) (buf : List Char),
    (∀ s ∈ ss, s ≠ [] ∧ HeadNonWs s ∧ LastNonWs s ∧ s.length ≤ MAX_CHUNK_LEN) →
    (buf = [] ∨ (buf ≠ [] ∧ HeadNonWs buf ∧ LastNonWs buf)) →
    joinSp (chunkLoop ss buf) = spCat buf (joinSp ss) := by
  intro ss
  induction ss with
  | nil =>
    intro buf _ hbuf
    rcases hbuf with hbuf | ⟨hne, hh, hl⟩
    · subst hbuf
      simp [chunkLoop_nil, joinSp_nil, spCat]
    · rw [chunkLoop_nil, if_neg hne, joinSp_single, trimWs_eq_self buf hh hl]
      simp [spCat, joinSp_nil, hne]
  | cons s ss ih =>
    intro buf hss hbuf
    obtain ⟨hsne, hsh, hsl, hslen⟩ := hss s (by simp)
    have hss' : ∀ p ∈ ss, p ≠ [] ∧ HeadNonWs p ∧ LastNonWs p ∧ p.length ≤ MAX_CHUNK_LEN :=
      fun p hp => hss p (List.mem_cons_of_mem s hp)
    have hpne : ∀ p ∈ ss, p ≠ [] := fun p hp => (hss' p hp).1
    rw [chunkLoop_cons]
    by_cases hcond : MAX_CHUNK_LEN < (trimWs (buf ++ ' ' :: s)).length
    · rw [if_pos hcond]
      rcases hbuf with hbe | ⟨hbne, hbh, hbl⟩
      · -- with an empty buffer the condition cannot hold: trim(' ' :: s) = s fits
        subst hbe
        rw [List.nil_append, trimWs_ws_cons ' ' s (by decide),
          trimWs_eq_self s hsh hsl] at hcond
        omega
      · have htr : trimWs (buf ++ ' ' :: s) = buf ++ ' ' :: s :=
          trimWs_eq_self _ (headNonWs_append buf _ hbne hbh)
            (lastNonWs_append_cons buf s hsne hsl)
        rw [if_neg hbne, if_neg (by omega)]
        rw [List.singleton_append, joinSp_cons _ _ (chunkLoop_ne_nil ss s hsne)]
        rw [ih s hss' (Or.inr ⟨hsne, hsh, hsl⟩), trimWs_eq_self buf hbh hbl]
        rw [joinSp_cons_eq_spCat s ss hsne hpne]
        have hy : spCat s (joinSp ss) ≠ [] := spCat_ne_nil_left _ _ hsne
        rw [spCat_eq_append _ _ hbne hy]
    · rw [if_neg hcond]
      by_cases hbe : buf = []
      · subst hbe
        rw [if_pos rfl]
        rw [ih s hss' (Or.inr ⟨hsne, hsh, hsl⟩)]
        rw [joinSp_cons_eq_spCat s ss hsne hpne, spCat_nil_left]
      · rw [if_neg hbe]
        obtain ⟨hbne, hbh, hbl⟩ := hbuf.resolve_left hbe
        have hb' : buf ++ ' ' :: s ≠ [] := by simp
        rw [ih (buf ++ ' ' :: s) hss'
          (Or.inr ⟨hb', headNonWs_append buf _ hbne hbh,
            lastNonWs_append_cons buf s hsne hsl⟩)]
        rw [joinSp_cons_eq_spCat s ss hsne hpne]
        by_cases hj : joinSp ss = []
        · rw [hj, spCat_nil_right, spCat_nil_right,
            spCat_eq_append _ _ hbne hsne]
        · rw [spCat_eq_append _ _ (by simp) hj,
            spCat_eq_append _ _ hsne hj,
            spCat_eq_append _ _ hbne (by simp)]
          simp

/-! ## Whitespace-free text and normalisation as identity -/

theorem headNonWs_of_wsFree (l : List Char) (h : ∀ c ∈ l, isWs c = false) :
    HeadNonWs l := by
  intro c hc
  exact h c (List.mem_of_mem_head? (by simp [hc]))

theorem lastNonWs_of_wsFree (l : List Char) (h : ∀ c ∈ l, isWs c = false) :
    LastNonWs l := by
  intro c hc
  exact h c (List.mem_of_mem_getLast? (by simp [hc]))

theorem noAdjWs_of_wsFree (l : List Char) (h : ∀ c ∈ l, isWs c = false) :
    NoAdjWs l := by
  induction l with
  | nil => trivial
  | cons c cs ih =>
    refine ⟨?_, ih (fun x hx => h x (List.mem_cons_of_mem c hx))⟩
    intro b _ hcon
    rw [h c (by simp)] at hcon
    exact Bool.false_ne_true hcon.1

theorem wsSp_of_wsFree (l : List Char) (h : ∀ c ∈ l, isWs c = false) :
    WsIsSp l := by
  intro c hc hw
  rw [h c hc] at hw
  exact absurd hw (by simp)

theorem normalShape_of_wsFree (l : List Char) (h : ∀ c ∈ l, isWs c = false) :
    NormalShape l :=
  ⟨headNonWs_of_wsFree l h, lastNonWs_of_wsFree l h,
    noAdjWs_of_wsFree l h, wsSp_of_wsFree l h⟩

theorem noAdjWs_wsFree_append_sp (l1 l2 : List Char)
    (h1 : ∀ c ∈ l1, isWs c = false) (h2 : ∀ c ∈ l2, isWs c = false) :
    NoAdjWs (l1 ++ ' ' :: l2) := by
  induction l1 with
  | nil =>
    refine ⟨?_, noAdjWs_of_wsFree l2 h2⟩
    intro b hb hcon
    rw [h2 b (List.mem_of_mem_head? (by simp [hb]))] at hcon
    exact Bool.false_ne_true hcon.2
  | cons c cs ih =>
    refine ⟨?_, ih (fun x hx => h1 x (List.mem_cons_of_mem c hx))⟩
    intro b _ hcon
    rw [h1 c (by simp)] at hcon
    exact Bool.false_ne_true hcon.1

/-- A single interior space between two whitespace-free non-empty halves is a
normalised string. -/
theorem normalShape_append_sp (l1 l2 : List Char)
    (h1 : ∀ c ∈ l1, isWs c = false) (h2 : ∀ c ∈ l2, isWs c = false)
    (hne1 : l1 ≠ []) (hne2 : l2 ≠ []) : NormalShape (l1 ++ ' ' :: l2) := by
  refine ⟨?_, ?_, noAdjWs_wsFree_append_sp l1 l2 h1 h2, ?_⟩
  · exact headNonWs_append l1 _ hne1 (headNonWs_of_wsFree l1 h1)
  · exact lastNonWs_append_cons l1 l2 hne2 (lastNonWs_of_wsFree l2 h2)
  · intro c hc hw
    rcases List.mem_append.mp hc with hcl | hcr
    · rw [h1 c hcl] at hw; exact absurd hw (by simp)
    · rcases List.mem_cons.mp hcr with hsp | hcl2
      · exact hsp
      · rw [h2 c hcl2] at hw; exact absurd hw (by simp)

/-- On text that is already in normal shape, the whitespace squeeze is the
identity (statement strengthened with the flag for the induction). -/
theorem squeezeGo_eq_self : ∀ l : List Char, WsIsSp l → NoAdjWs l →
    squeezeGo false l = l ∧ (headIsWs l = false → squeezeGo true l = l) := by
  intro l
  induction l with
  | nil => exact fun _ _ => ⟨rfl, fun _ => rfl⟩
  | cons c cs ih =>
    intro hws hadj
    obtain ⟨ih1, ih2⟩ := ih (wsSp_tail _ _ hws) (noAdjWs_tail _ _ hadj)
    by_cases hc : isWs c = true
    · have hsp : c = ' ' := hws c (by simp) hc
      have hcs : headIsWs cs = false := by
        cases cs with
        | nil => rfl
        | cons d ds =>
          simp only [headIsWs]
          by_contra hcon
          exact hadj.1 d rfl ⟨hc, by simpa using hcon⟩
      constructor
      · show (if isWs c = true then ' ' :: squeezeGo true cs else _) = c :: cs
        rw [if_pos hc, ih2 hcs, hsp]
      · intro hh
        rw [show headIsWs (c :: cs) = isWs c from rfl, hc] at hh
        exact absurd hh (by simp)
    · have hcf : isWs c = false := by simpa using hc
      constructor
      · show (if isWs c = true then ' ' :: squeezeGo true cs else c :: squeezeGo false cs) = c :: cs
        rw [if_neg (by simp [hcf]), ih1]
      · intro _
        show (if isWs c = true then squeezeGo true cs else c :: squeezeGo false cs) = c :: cs
        rw [if_neg (by simp [hcf]), ih1]

/-- Normalisation is the identity on text already in normal shape. -/
theorem normalizeWs_eq_self (l : List Char) (h : NormalShape l) :
    normalizeWs l = l := by
  obtain ⟨hh, hl, hadj, hws⟩ := h
  unfold normalizeWs squeezeWs
  rw [(squeezeGo_eq_self l hws hadj).1]
  exact trimWs_eq_self l hh hl

/-- Without boundary punctuation the sentence split never splits. -/
theorem splitGo_no_split : ∀ (l cur : List Char),
    (∀ c ∈ l, isSentEnd c = false) → splitGo false cur l = [cur.reverse ++ l] := by
  intro l
  induction l with
  | nil => intro cur _; simp [splitGo]
  | cons c cs ih =>
    intro cur h
    rw [splitGo_false_cons, if_neg (by simp [h c (by simp)]),
      ih (c :: cur) (fun x hx => h x (List.mem_cons_of_mem c hx))]
    simp

theorem splitSentences_no_split (l : List Char)
    (h : ∀ c ∈ l, isSentEnd c = false) : splitSentences l = [l] := by
  unfold splitSentences
  rw [splitGo_no_split l [] h]
  simp

/-! ## hardSlices computation lemmas -/

theorem hardSlicesGo_small (fuel : Nat) (l : List Char) (hne : l ≠ [])
    (hlen : l.length ≤ MAX_CHUNK_LEN) (hf : fuel ≠ 0) :
    hardSlicesGo fuel l = [l] := by
  cases fuel with
  | zero => exact absurd rfl hf
  | succ n =>
    cases l with
    | nil => exact absurd rfl hne
    | cons c cs =>
      show (c :: cs).take MAX_CHUNK_LEN :: hardSlicesGo n ((c :: cs).drop MAX_CHUNK_LEN) = _
      rw [List.take_of_length_le hlen, List.drop_of_length_le hlen]
      cases n <;> rfl

theorem hardSlicesGo_step (fuel : Nat) (l : List Char)
    (h : MAX_CHUNK_LEN < l.length) (hf : l.length ≤ fuel) :
    hardSlicesGo fuel l = l.take MAX_CHUNK_LEN :: hardSlicesGo (fuel - 1) (l.drop MAX_CHUNK_LEN) := by
  cases fuel with
  | zero =>
    have : l.length = 0 := Nat.le_zero.mp hf
    rw [MAX_CHUNK_LEN] at h
    omega
  | succ n =>
    cases l with
    | nil => simp at h
    | cons c cs => rfl

theorem hardSlicesGo_mem_length : ∀ (fuel : Nat) (l : List Char),
    ∀ c ∈ hardSlicesGo fuel l, c.length ≤ MAX_CHUNK_LEN := by
  intro fuel
  induction fuel with
  | zero => intro l c hc; simp [hardSlicesGo] at hc
  | succ n ih =>
    intro l c hc
    cases l with
    | nil => simp [hardSlicesGo] at hc
    | cons x xs =>
      rcases List.mem_cons.mp hc with h1 | h2
      · subst h1
        rw [List.length_take]
        exact Nat.min_le_left _ _
      · exact ih _ c h2

theorem hardSlicesGo_mem_ne_nil : ∀ (fuel : Nat) (l : List Char),
    ∀ c ∈ hardSlicesGo fuel l, c ≠ [] := by
  intro fuel
  induction fuel with
  | zero => intro l c hc; simp [hardSlicesGo] at hc
  | succ n ih =>
    intro l c hc
    cases l with
    | nil => simp [hardSlicesGo] at hc
    | cons x xs =>
      rcases List.mem_cons.mp hc with h1 | h2
      · subst h1
        show (x :: xs).take MAX_CHUNK_LEN ≠ []
        rw [MAX_CHUNK_LEN]
        simp [List.take_succ_cons]
      · exact ih _ c h2

theorem hardSlices_mem_length (s : List Char) :
    ∀ c ∈ hardSlices s, c.length ≤ MAX_CHUNK_LEN :=
  hardSlicesGo_mem_length s.length s

theorem hardSlices_mem_ne_nil (s : List Char) : ∀ c ∈ hardSlices s, c ≠ [] :=
  hardSlicesGo_mem_ne_nil s.length s

/-! ## buildChunks: max-length, non-emptiness, round-trip -/

theorem chunkLoop_mem_length : ∀ (ss : List (List Char)) (buf : List Char),
    (trimWs buf).length ≤ MAX_CHUNK_LEN →
    ∀ c ∈ chunkLoop ss buf, c.length ≤ MAX_CHUNK_LEN := by
  intro ss
  induction ss with
  | nil =>
    intro buf hbuf c hc
    rw [chunkLoop_nil] at hc
    by_cases hbe : buf = []
    · rw [if_pos hbe] at hc; simp at hc
    · rw [if_neg hbe] at hc
      simp only [List.mem_singleton] at hc
      subst hc
      exact hbuf
  | cons s ss ih =>
    intro buf hbuf c hc
    rw [chunkLoop_cons] at hc
    by_cases hcond : MAX_CHUNK_LEN < (trimWs (buf ++ ' ' :: s)).length
    · rw [if_pos hcond] at hc
      rcases List.mem_append.mp hc with hc1 | hc2
      · by_cases hbe : buf = []
        · rw [if_pos hbe] at hc1; simp at hc1
        · rw [if_neg hbe] at hc1
          simp only [List.mem_singleton] at hc1
          subst hc1
          exact hbuf
      · by_cases hlong : MAX_CHUNK_LEN < s.length
        · rw [if_pos hlong] at hc2
          rcases List.mem_append.mp hc2 with hc3 | hc4
          · exact hardSlices_mem_length s c hc3
          · exact ih [] (by simp [trimWs, dropTrailWs]) c hc4
        · rw [if_neg hlong] at hc2
          exact ih s (le_trans (trimWs_length_le s) (by omega)) c hc2
    · rw [if_neg hcond] at hc
      by_cases hbe : buf = []
      · rw [if_pos hbe] at hc
        refine ih s ?_ c hc
        rw [hbe, List.nil_append, trimWs_ws_cons ' ' s (by decide)] at hcond
        omega
      · rw [if_neg hbe] at hc
        exact ih (buf ++ ' ' :: s) (by omega) c hc

theorem chunkLoop_mem_ne_nil : ∀ (ss : List (List Char)) (buf : List Char),
    (∀ s ∈ ss, s ≠ [] ∧ HeadNonWs s) →
    (buf = [] ∨ (buf ≠ [] ∧ HeadNonWs buf)) →
    ∀ c ∈ chunkLoop ss buf, c ≠ [] := by
  intro ss
  induction ss with
  | nil =>
    intro buf _ hbuf c hc
    rw [chunkLoop_nil] at hc
    rcases hbuf with hbe | ⟨hbne, hbh⟩
    · rw [if_pos hbe] at hc; simp at hc
    · rw [if_neg hbne] at hc
      simp only [List.mem_singleton] at hc
      subst hc
      exact trimWs_ne_nil buf hbh hbne
  | cons s ss ih =>
    intro buf hss hbuf c hc
    obtain ⟨hsne, hsh⟩ := hss s (by simp)
    have hss' : ∀ p ∈ ss, p ≠ [] ∧ HeadNonWs p :=
      fun p hp => hss p (List.mem_cons_of_mem s hp)
    rw [chunkLoop_cons] at hc
    by_cases hcond : MAX_CHUNK_LEN < (trimWs (buf ++ ' ' :: s)).length
    · rw [if_pos hcond] at hc
      rcases List.mem_append.mp hc with hc1 | hc2
      · rcases hbuf with hbe | ⟨hbne, hbh⟩
        · rw [if_pos hbe] at hc1; simp at hc1
        · rw [if_neg hbne] at hc1
          simp only [List.mem_singleton] at hc1
          subst hc1
          exact trimWs_ne_nil buf hbh hbne
      · by_cases hlong : MAX_CHUNK_LEN < s.length
        · rw [if_pos hlong] at hc2
          rcases List.mem_append.mp hc2 with hc3 | hc4
          · exact hardSlices_mem_ne_nil s c hc3
          · exact ih [] hss' (Or.inl rfl) c hc4
        · rw [if_neg hlong] at hc2
          exact ih s hss' (Or.inr ⟨hsne, hsh⟩) c hc2
    · rw [if_neg hcond] at hc
      by_cases hbe : buf = []
      · rw [if_pos hbe] at hc
        exact ih s hss' (Or.inr ⟨hsne, hsh⟩) c hc
      · rw [if_neg hbe] at hc
        rcases hbuf with hbe' | ⟨hbne, hbh⟩
        · exact absurd hbe' hbe
        · exact ih (buf ++ ' ' :: s) hss'
            (Or.inr ⟨by simp, headNonWs_append buf _ hbne hbh⟩) c hc

/-- The sentence pieces of the normalised text, packaged for reuse. -/
theorem splitSentences_pieces (t : List Char) (hne : normalizeWs t ≠ []) :
    ∀ p ∈ splitSentences (normalizeWs t), p ≠ [] ∧ HeadNonWs p ∧ LastNonWs p := by
  obtain ⟨hh, hl, hadj, hws⟩ := normalizeWs_shape t
  exact splitGo_pieces (normalizeWs t).length (normalizeWs t) []
    le_rfl hws hadj hl (by simpa using hne) (by simpa using hh)
    (fun h => absurd h hne)

/-- Every chunk respects the `MAX_CHUNK_LEN` bound, for every input. -/
theorem buildChunks_mem_length (t : List Char) :
    ∀ c ∈ buildChunks t, c.length ≤ MAX_CHUNK_LEN := by
  intro c hc
  unfold buildChunks at hc
  by_cases hn : normalizeWs t = []
  · rw [if_pos hn] at hc; simp at hc
  · rw [if_neg hn] at hc
    exact chunkLoop_mem_length _ [] (by simp [trimWs, dropTrailWs]) c hc

/-- Every chunk is non-empty, for every input. -/
theorem buildChunks_mem_ne_nil (t : List Char) :
    ∀ c ∈ buildChunks t, c ≠ [] := by
  intro c hc
  unfold buildChunks at hc
  by_cases hn : normalizeWs t = []
  · rw [if_pos hn] at hc; simp at hc
  · rw [if_neg hn] at hc
    exact chunkLoop_mem_ne_nil _ [] 
      (fun p hp => ⟨(splitSentences_pieces t hn p hp).1,
        (splitSentences_pieces t hn p hp).2.1⟩)
      (Or.inl rfl) c hc

theorem squeezeGo_all_ws : ∀ (l : List Char), (∀ c ∈ l, isWs c = true) →
    ∀ (b : Bool), ∀ c ∈ squeezeGo b l, isWs c = true := by
  intro l
  induction l with
  | nil => intro _ b c hc; simp [squeezeGo] at hc
  | cons x xs ih =>
    intro hl b c hc
    have hx : isWs x = true := hl x (by simp)
    have hxs : ∀ c ∈ xs, isWs c = true := fun c hc => hl c (List.mem_cons_of_mem x hc)
    simp only [squeezeGo, hx, if_true] at hc
    cases b with
    | true => exact ih hxs true c hc
    | false =>
      rcases List.mem_cons.mp hc with h1 | h2
      · subst h1; decide
      · exact ih hxs true c h2

/-- Normalising whitespace-only text yields the empty string. -/
theorem normalizeWs_all_ws (t : List Char) (h : ∀ c ∈ t, isWs c = true) :
    normalizeWs t = [] := by
  unfold normalizeWs squeezeWs trimWs
  rw [List.dropWhile_eq_nil_iff.mpr (squeezeGo_all_ws t h false)]
  rfl

/-- Whitespace-only (or empty) input yields no chunks. -/
theorem buildChunks_ws_only (t : List Char) (h : ∀ c ∈ t, isWs c = true) :
    buildChunks t = [] := by
  unfold buildChunks
  rw [if_pos (normalizeWs_all_ws t h)]
/-- Claim C2 (amended): when no sentence of the normalised text exceeds
`MAX_CHUNK_LEN` (so the hard split never fires), joining the chunks with
single spaces reconstructs the normalised source text exactly — no loss or
duplication of words. -/
theorem buildChunks_roundtrip (t : List Char)
    (hL : ∀ s ∈ splitSentences (normalizeWs t), s.length ≤ MAX_CHUNK_LEN) :
    joinSp (buildChunks t) = normalizeWs t := by
  unfold buildChunks
  by_cases hn : normalizeWs t = []
  · rw [if_pos hn, joinSp_nil, hn]
  · rw [if_neg hn]
    obtain ⟨hh, hl, hadj, hws⟩ := normalizeWs_shape t
    have hpieces := splitSentences_pieces t hn
    rw [chunkLoop_join (splitSentences (normalizeWs t)) []
      (fun s hs => ⟨(hpieces s hs).1, (hpieces s hs).2.1, (hpieces s hs).2.2, hL s hs⟩)
      (Or.inl rfl), spCat_nil_left]
    simpa using splitGo_join (normalizeWs t).length (normalizeWs t) [] le_rfl hws hadj hl

/-- A normalised single sentence longer than the limit is exactly its hard
slices. -/
theorem buildChunks_single_long_sentence (s : List Char)
    (hshape : NormalShape s) (hnosent : ∀ c ∈ s, isSentEnd c = false)
    (hne : s ≠ []) (hlong : MAX_CHUNK_LEN < s.length) :
    buildChunks s = hardSlices s := by
  unfold buildChunks
  rw [normalizeWs_eq_self s hshape, if_neg hne, splitSentences_no_split s hnosent,
    chunkLoop_cons]
  have htr : trimWs ([] ++ ' ' :: s) = s := by
    rw [List.nil_append, trimWs_ws_cons ' ' s (by decide),
      trimWs_eq_self s hshape.1 hshape.2.1]
  rw [if_pos (by rw [htr]; exact hlong), if_pos rfl, if_pos hlong, chunkLoop_nil,
    if_pos rfl]
  simp

theorem take_cons_pos (n : Nat) (hn : n ≠ 0) (c : Char) (l : List Char) :
    (c :: l).take n = c :: l.take (n - 1) := by
  cases n with
  | zero => exact absurd rfl hn
  | succ m => simp [List.take_succ_cons]

theorem drop_cons_pos (n : Nat) (hn : n ≠ 0) (c : Char) (l : List Char) :
    (c :: l).drop n = l.drop (n - 1) := by
  cases n with
  | zero => exact absurd rfl hn
  | succ m => simp [List.drop_succ_cons]

theorem buildChunks_exLong601 :
    buildChunks exLong601 = [List.replicate 600 'a', ['a']] := by
  have h1 : ∀ c ∈ exLong601, isWs c = false := fun c hc => by
    rw [List.eq_of_mem_replicate hc]; decide
  have h2 : ∀ c ∈ exLong601, isSentEnd c = false := fun c hc => by
    rw [List.eq_of_mem_replicate hc]; decide
  have hlen : exLong601.length = 601 := by rw [exLong601, List.length_replicate]
  have hne : exLong601 ≠ [] := by
    intro hcon
    rw [hcon] at hlen
    simp at hlen
  rw [buildChunks_single_long_sentence exLong601 (normalShape_of_wsFree _ h1) h2 hne
    (by rw [hlen]; decide)]
  unfold hardSlices
  rw [hlen, hardSlicesGo_step 601 exLong601 (by rw [hlen]; decide) (by rw [hlen])]
  have htk : exLong601.take MAX_CHUNK_LEN = List.replicate 600 'a' := by
    rw [exLong601, MAX_CHUNK_LEN, List.take_replicate]
    norm_num
  have hdr : exLong601.drop MAX_CHUNK_LEN = ['a'] := by
    rw [exLong601, MAX_CHUNK_LEN, List.drop_replicate]
    norm_num
  rw [htk, hdr, hardSlicesGo_small (601 - 1) ['a'] (by simp) (by rw [MAX_CHUNK_LEN]; simp)
    (by norm_num)]

theorem buildChunks_exLong1500 :
    buildChunks exLong1500 =
      [List.replicate 600 'a', List.replicate 600 'a', List.replicate 300 'a'] := by
  have h1 : ∀ c ∈ exLong1500, isWs c = false := fun c hc => by
    rw [List.eq_of_mem_replicate hc]; decide
  have h2 : ∀ c ∈ exLong1500, isSentEnd c = false := fun c hc => by
    rw [List.eq_of_mem_replicate hc]; decide
  have hlen : exLong1500.length = 1500 := by rw [exLong1500, List.length_replicate]
  have hne : exLong1500 ≠ [] := by
    intro hcon
    rw [hcon] at hlen
    simp at hlen
  rw [buildChunks_single_long_sentence exLong1500 (normalShape_of_wsFree _ h1) h2 hne
    (by rw [hlen]; decide)]
  unfold hardSlices
  rw [hlen, hardSlicesGo_step 1500 exLong1500 (by rw [hlen]; decide) (by rw [hlen])]
  have htk : exLong1500.take MAX_CHUNK_LEN = List.replicate 600 'a' := by
    rw [exLong1500, MAX_CHUNK_LEN, List.take_replicate]
    norm_num
  have hdr : exLong1500.drop MAX_CHUNK_LEN = List.replicate 900 'a' := by
    rw [exLong1500, MAX_CHUNK_LEN, List.drop_replicate]
  rw [htk, hdr,
    hardSlicesGo_step (1500 - 1) (List.replicate 900 'a')
      (by rw [MAX_CHUNK_LEN, List.length_replicate]; norm_num)
      (by rw [List.length_replicate]; norm_num)]
  have htk2 : (List.replicate 900 'a').take MAX_CHUNK_LEN = List.replicate 600 'a' := by
    rw [MAX_CHUNK_LEN, List.take_replicate]
    norm_num
  have hdr2 : (List.replicate 900 'a').drop MAX_CHUNK_LEN = List.replicate 300 'a' := by
    rw [MAX_CHUNK_LEN, List.drop_replicate]
  rw [htk2, hdr2, hardSlicesGo_small (1500 - 1 - 1) (List.replicate 300 'a')
    (by simp) (by rw [MAX_CHUNK_LEN]; simp) (by norm_num)]

theorem exMixed1201_wsFree_parts :
    (∀ c ∈ List.replicate 600 'a', isWs c = false) ∧
    (∀ c ∈ List.replicate 600 'b', isWs c = false) ∧
    (∀ c ∈ List.replicate 599 'b', isWs c = false) := by
  refine ⟨?_, ?_, ?_⟩ <;>
    exact fun c hc => by rw [List.eq_of_mem_replicate hc]; decide

theorem buildChunks_exMixed1201 :
    buildChunks exMixed1201 =
      [List.replicate 600 'a', ' ' :: List.replicate 599 'b', ['b']] := by
  obtain ⟨ha, hb, _⟩ := exMixed1201_wsFree_parts
  have hshape : NormalShape exMixed1201 :=
    normalShape_append_sp _ _ ha hb (by simp) (by simp)
  have h2 : ∀ c ∈ exMixed1201, isSentEnd c = false := by
    intro c hc
    rcases List.mem_append.mp hc with h | h
    · rw [List.eq_of_mem_replicate h]; decide
    · rcases List.mem_cons.mp h with h | h
      · rw [h]; decide
      · rw [List.eq_of_mem_replicate h]; decide
  have hlen : exMixed1201.length = 1201 := by simp [exMixed1201]
  have hne : exMixed1201 ≠ [] := by simp [exMixed1201]
  rw [buildChunks_single_long_sentence exMixed1201 hshape h2 hne (by rw [hlen]; decide)]
  unfold hardSlices
  rw [hlen, hardSlicesGo_step 1201 exMixed1201 (by rw [hlen]; decide) (by rw [hlen])]
  have htk : exMixed1201.take MAX_CHUNK_LEN = List.replicate 600 'a' := by
    rw [exMixed1201, MAX_CHUNK_LEN, List.take_append_eq_append_take]
    simp [List.take_replicate]
  have hdr : exMixed1201.drop MAX_CHUNK_LEN = ' ' :: List.replicate 600 'b' := by
    rw [exMixed1201, MAX_CHUNK_LEN, List.drop_append_eq_append_drop]
    simp [List.drop_replicate]
  rw [htk, hdr,
    hardSlicesGo_step (1201 - 1) (' ' :: List.replicate 600 'b') (by simp; decide)
      (by simp)]
  have htk2 : (' ' :: List.replicate 600 'b').take MAX_CHUNK_LEN =
      ' ' :: List.replicate 599 'b' := by
    rw [MAX_CHUNK_LEN, take_cons_pos 600 (by norm_num), List.take_replicate]
    norm_num
  have hdr2 : (' ' :: List.replicate 600 'b').drop MAX_CHUNK_LEN = ['b'] := by
    rw [MAX_CHUNK_LEN, drop_cons_pos 600 (by norm_num), List.drop_replicate]
    norm_num
  rw [htk2, hdr2, hardSlicesGo_small (1201 - 1 - 1) ['b'] (by simp)
    (by rw [MAX_CHUNK_LEN]; simp) (by norm_num)]

/-! ## Word-split lemmas (used by the preference-change estimation) -/

theorem wordsGo_pieces : ∀ (l cur : List Char), (∀ c ∈ cur, isWs c = false) →
    ∀ p ∈ wordsGo cur l, p ≠ [] ∧ ∀ c ∈ p, isWs c = false := by
  intro l
  induction l with
  | nil =>
    intro cur hcur p hp
    by_cases hce : cur = []
    · simp [wordsGo, hce] at hp
    · simp only [wordsGo, if_neg hce, List.mem_singleton] at hp
      subst hp
      exact ⟨by simpa using hce, fun c hc => hcur c (List.mem_reverse.mp hc)⟩
  | cons c cs ih =>
    intro cur hcur p hp
    by_cases hc : isWs c = true
    · by_cases hce : cur = []
      · simp only [wordsGo, hc, if_true, if_pos hce] at hp
        exact ih [] (by simp) p hp
      · simp only [wordsGo, hc, if_true, if_neg hce, List.mem_cons] at hp
        rcases hp with hp1 | hp2
        · subst hp1
          exact ⟨by simpa using hce, fun x hx => hcur x (List.mem_reverse.mp hx)⟩
        · exact ih [] (by simp) p hp2
    · simp only [wordsGo, hc, if_false] at hp
      refine ih (c :: cur) ?_ p hp
      intro x hx
      rcases List.mem_cons.mp hx with h1 | h2
      · subst h1; simpa using hc
      · exact hcur x h2

theorem splitWords_pieces (l : List Char) :
    ∀ p ∈ splitWords l, p ≠ [] ∧ ∀ c ∈ p, isWs c = false :=
  wordsGo_pieces l [] (by simp)

theorem joinSp_head_last (ws' : List (List Char))
    (h : ∀ p ∈ ws', p ≠ [] ∧ ∀ c ∈ p, isWs c = false) :
    HeadNonWs (joinSp ws') ∧ LastNonWs (joinSp ws') := by
  induction ws' with
  | nil =>
    constructor
    · intro c hc; simp [joinSp_nil] at hc
    · intro c hc; simp [joinSp_nil] at hc
  | cons p ps ih =>
    obtain ⟨hpne, hpw⟩ := h p (by simp)
    have hps : ∀ q ∈ ps, q ≠ [] ∧ ∀ c ∈ q, isWs c = false :=
      fun q hq => h q (List.mem_cons_of_mem p hq)
    cases ps with
    | nil =>
      rw [joinSp_single]
      exact ⟨headNonWs_of_wsFree p hpw, lastNonWs_of_wsFree p hpw⟩
    | cons q qs =>
      rw [joinSp_cons _ _ (by simp)]
      have hjne : joinSp (q :: qs) ≠ [] :=
        joinSp_ne_nil _ (by simp) (fun r hr => (hps r hr).1)
      exact ⟨headNonWs_append p _ hpne (headNonWs_of_wsFree p hpw),
        lastNonWs_append_cons p _ hjne ((ih hps).2)⟩

/-- Joining whitespace-free non-empty words with spaces is already trimmed. -/
theorem trimWs_joinSp_words (ws' : List (List Char))
    (h : ∀ p ∈ ws', p ≠ [] ∧ ∀ c ∈ p, isWs c = false) :
    trimWs (joinSp ws') = joinSp ws' := by
  obtain ⟨hh, hl⟩ := joinSp_head_last ws' h
  exact trimWs_eq_self _ hh hl

/-! ## Counterexample computations -/

/-- Claim C2 (counterexample): for the 601-character single-word sentence the
chunks do not round-trip — space-joining the two hard slices inserts a space
in the middle of the word, so even after re-normalisation the text differs
from the normalised source. -/
theorem buildChunks_roundtrip_fails_on_hard_split :
    normalizeWs (joinSp (buildChunks exLong601)) ≠ normalizeWs exLong601 := by
  have h1 : ∀ c ∈ exLong601, isWs c = false := fun c hc => by
    rw [List.eq_of_mem_replicate hc]; decide
  have ha : ∀ c ∈ List.replicate 600 'a', isWs c = false := fun c hc => by
    rw [List.eq_of_mem_replicate hc]; decide
  rw [buildChunks_exLong601, joinSp_cons _ _ (by simp), joinSp_single,
    normalizeWs_eq_self _ (normalShape_append_sp _ _ ha (by decide) (by simp) (by simp)),
    normalizeWs_eq_self exLong601 (normalShape_of_wsFree _ h1)]
  intro hcon
  have hlen := congrArg List.length hcon
  rw [exLong601, List.length_append, List.length_replicate, List.length_cons,
    List.length_replicate] at hlen
  simp at hlen

/-- Claim C9 (counterexample): the second chunk produced for `exMixed1201`
carries a leading space — hard-split slices are pushed without trimming, so
not every produced fragment is trimmed. -/
theorem buildChunks_not_all_trimmed :
    trimWs ((buildChunks exMixed1201).getD 1 []) ≠ (buildChunks exMixed1201).getD 1 [] := by
  obtain ⟨_, _, hb599⟩ := exMixed1201_wsFree_parts
  rw [buildChunks_exMixed1201]
  show trimWs (' ' :: List.replicate 599 'b') ≠ ' ' :: List.replicate 599 'b'
  rw [trimWs_ws_cons ' ' _ (by decide),
    trimWs_eq_self _ (headNonWs_of_wsFree _ hb599) (lastNonWs_of_wsFree _ hb599)]
  intro hcon
  have hlen := congrArg List.length hcon
  rw [List.length_replicate, List.length_cons, List.length_replicate] at hlen
  simp at hlen

/-! ## Controller lemmas -/

/-- Claim C8: any playback-initiating call (`speakText`, `resumeSpeech`,
`restartSpeech`) made while the re-entrancy flag `isInitiatingPlayback` is
held is silently ignored: it returns with the whole session state unchanged
(session id, chunks, cursor, preferences, play state) and issues no
speech-engine call, so only one chunk chain is ever started. -/
theorem initiating_guard (s : TTSState) (text : List Char)
    (p : Option TTSPreferences) (a r : Bool) (now : ℚ)
    (h : s.isInitiatingPlayback = true) :
    speakText text p a r now s = (s, []) ∧
    resumeSpeech a r now s = (s, []) ∧
    restartSpeech text p now s = (s, []) := by
  refine ⟨?_, ?_, ?_⟩
  · unfold speakText
    rw [if_pos h]
  · unfold resumeSpeech
    rw [if_pos h]
  · unfold restartSpeech
    rw [if_pos h]

/-- Claim C4: a speech-engine completion callback (`onDone`, `onStopped` or
`onError`) carrying a session id different from the controller's current
`sessionId` never mutates session state and produces no effect — the
mechanism that makes restarts and seeks safe while speech is in flight. -/
theorem stale_callback_noop (s : TTSState) (i sid : Nat) (now : ℚ)
    (h : sid ≠ s.sessionId) :
    onDone i sid now s = (s, []) ∧ onStopped sid s = (s, []) ∧
    onError sid s = (s, []) := by
  refine ⟨?_, ?_, ?_⟩
  · unfold onDone
    rw [if_pos h]
  · unfold onStopped
    rw [if_pos h]
  · unfold onError
    rw [if_pos h]

/-- Claim C1 (code bug, what the code actually does): `speakText` on a paused
session with the same text delegates to `resumeSpeech()`, but that call hits
its own re-entrancy guard — `isInitiatingPlayback` was just set by `speakText`
— so the whole call is a no-op: the session stays `Paused`, nothing resumes,
and no speech-engine call is issued.  This contradicts the specification and
the repository's own `TTS_RESUME_FIX.md`. -/
theorem speakText_paused_same_text_noop (s : TTSState) (text : List Char)
    (p : Option TTSPreferences) (a r : Bool) (now : ℚ)
    (hflag : s.isInitiatingPlayback = false) (hp : s.isPaused = true)
    (ht : s.currentText = text) :
    speakText text p a r now s = (s, []) := by
  obtain ⟨pl, pa, ct, ch, ix, sid, pr, cst, csp, ov, fl⟩ := s
  simp only at hflag hp ht
  subst hflag hp ht
  unfold speakText resumeSpeech
  simp

/-- The chain `speakChunkChain` in its normal case: a valid index, current session, no
pending override, and a chunk with speakable text — one `Speech.speak` call is
issued for that chunk and the cursor moves to it. -/
theorem speakChunkChain_normal (i sid : Nat) (now : ℚ) (s : TTSState)
    (hsid : sid = s.sessionId) (hi : i < s.chunks.length)
    (hov : s.overrideFirstChunk = none)
    (htrim : trimWs (s.chunks.getD i []) ≠ []) :
    speakChunkChain i sid now s =
      ({ s with
          currentChunkIndex := i, isPlaying := true, isPaused := false,
          chunkStartTime := some now, chunkStartPrefs := some s.currentPreferences },
       updateProgress { s with currentChunkIndex := i, isPlaying := true, isPaused := false }
         ++ [.speak (s.chunks.getD i []) i sid]) := by
  unfold speakChunkChain
  rw [if_neg (by simp [hsid]), if_neg (by omega)]
  have htrim2 : ¬ trimWs (s.chunks[i]?.getD []) = [] := by
    simpa [List.getD] using htrim
  simp [hov, htrim2, List.getD]
theorem speakCalls_append : ∀ (a b : List TTSEvent),
    speakCalls (a ++ b) = speakCalls a ++ speakCalls b := by
  intro a
  induction a with
  | nil => intro b; rfl
  | cons e es ih =>
    intro b
    cases e <;> simp [speakCalls, ih]

theorem speakCalls_updateProgress (s : TTSState) :
    speakCalls (updateProgress s) = [] := by
  unfold updateProgress
  split <;> rfl

/-- Pausing never touches the chunk cursor. -/
theorem pauseSpeech_state (a pok : Bool) (s : TTSState) :
    (pauseSpeech a pok s).1 = { s with isPaused := true, isPlaying := false } := rfl

/-- Claim C3: for a session playing chunk `k` of `n ≥ 3`, `pauseSpeech` leaves
`currentChunkIndex` untouched, and `resumeSpeech` (on the manual-resume path:
Android, or engine resume failed) restarts the chunk chain exactly at the
saved index `k` — not 0 and not `k + 1` — without bumping the session id. -/
theorem pause_resume_preserves_position (s : TTSState) (k : Nat)
    (a pok a2 r2 : Bool) (now : ℚ)
    (hflag : s.isInitiatingPlayback = false)
    (hplay : s.isPlaying = true)
    (hidx : s.currentChunkIndex = k)
    (hk : k < s.chunks.length)
    (hn : 3 ≤ s.chunks.length)
    (htext : s.currentText ≠ [])
    (hov : s.overrideFirstChunk = none)
    (htrim : trimWs (s.chunks.getD k []) ≠ [])
    (hman : a2 = true ∨ r2 = false) :
    (pauseSpeech a pok s).1.currentChunkIndex = k ∧
    (pauseSpeech a pok s).1.isPaused = true ∧
    ((resumeSpeech a2 r2 now (pauseSpeech a pok s).1).1.currentChunkIndex = k ∧
     (resumeSpeech a2 r2 now (pauseSpeech a pok s).1).1.isPlaying = true ∧
     (resumeSpeech a2 r2 now (pauseSpeech a pok s).1).1.isPaused = false ∧
     (resumeSpeech a2 r2 now (pauseSpeech a pok s).1).1.sessionId = s.sessionId ∧
     speakCalls (resumeSpeech a2 r2 now (pauseSpeech a pok s).1).2 =
       [(s.chunks.getD k [], k, s.sessionId)]) := by
  obtain ⟨pl, pa, ct, ch, ix, sid, pr, cst, csp, ov, fl⟩ := s
  dsimp only at hflag hplay hidx hk hn htext hov htrim ⊢
  subst hflag hplay hidx hov
  have hcond : ¬(¬a2 = true ∧ r2 = true) := by
    rcases hman with h | h <;> simp [h]
  have hch : ch ≠ [] := by
    intro hcon
    rw [hcon] at hk
    simp at hk
  have hps : (pauseSpeech a pok ⟨true, pa, ct, ch, ix, sid, pr, cst, csp, none, false⟩).1
      = (⟨false, true, ct, ch, ix, sid, pr, cst, csp, none, false⟩ : TTSState) := rfl
  rw [hps]
  refine ⟨rfl, rfl, ?_⟩
  unfold resumeSpeech
  rw [if_neg (by simp), if_neg (by simp [htext, hch])]
  dsimp only
  rw [if_neg hcond]
  rw [speakChunkChain_normal ix sid now
    ⟨true, false, ct, ch, ix, sid, pr, cst, csp, none, true⟩ rfl hk rfl htrim]
  dsimp only
  simp [speakCalls, speakCalls_append, speakCalls_updateProgress]

/-- Whatever the chain does at a valid index of the current session (speak the
chunk, speak a pending override, or skip an unspeakable chunk), the cursor
lands on that index and the session fields are untouched. -/
theorem speakChunkChain_inbounds_fields (i sid : Nat) (now : ℚ) (s : TTSState)
    (hsid : sid = s.sessionId) (hi : i < s.chunks.length) :
    (speakChunkChain i sid now s).1.currentChunkIndex = i ∧
    (speakChunkChain i sid now s).1.sessionId = s.sessionId ∧
    (speakChunkChain i sid now s).1.isPlaying = true ∧
    (speakChunkChain i sid now s).1.isPaused = false ∧
    (speakChunkChain i sid now s).1.chunks = s.chunks := by
  unfold speakChunkChain
  rw [if_neg (by simp [hsid]), if_neg (by omega)]
  dsimp only
  split
  · split <;> simp
  · split <;> simp

/-- Claim C7: `seekToChunk` rejects out-of-range indices (including negative
ones and calls with no loaded text) as complete no-ops; a valid index moves
`currentChunkIndex` to it and bumps `sessionId`, and the chunk chain is
restarted at the new index only if the session was previously playing or
paused — otherwise the position is updated without speaking. -/
theorem seekToChunk_spec (s : TTSState) (i : ℤ) (now : ℚ) :
    ((s.currentText = [] ∨ s.chunks = [] ∨ i < 0 ∨ (s.chunks.length : ℤ) ≤ i) →
      seekToChunk i now s = (s, [])) ∧
    (s.currentText ≠ [] → s.chunks ≠ [] → 0 ≤ i → i < (s.chunks.length : ℤ) →
      ((seekToChunk i now s).1.currentChunkIndex = i.toNat ∧
       (seekToChunk i now s).1.sessionId = s.sessionId + 1 ∧
       (seekToChunk i now s).2.head? = some TTSEvent.stop ∧
       (s.isPlaying = false → s.isPaused = false →
         speakCalls (seekToChunk i now s).2 = []) ∧
       ((s.isPlaying = true ∨ s.isPaused = true) → s.overrideFirstChunk = none →
         trimWs (s.chunks.getD i.toNat []) ≠ [] →
         speakCalls (seekToChunk i now s).2 =
           [(s.chunks.getD i.toNat [], i.toNat, s.sessionId + 1)]))) := by
  obtain ⟨pl, pa, ct, ch, ix, sid, pr, cst, csp, ov, fl⟩ := s
  dsimp only
  constructor
  · intro h
    unfold seekToChunk
    by_cases hA : ct = [] ∨ ch = []
    · rw [if_pos (by dsimp only; exact hA)]
    · rw [if_neg (by dsimp only; exact hA)]
      have hB : i < 0 ∨ ((ch.length : ℤ) ≤ i) := by tauto
      rw [if_pos (by dsimp only; exact hB)]
  · intro h1 h2 h3 h4
    unfold seekToChunk
    rw [if_neg (by dsimp only; simp [h1, h2]), if_neg (by dsimp only; omega)]
    dsimp only
    by_cases hW : pl = true ∨ pa = true
    · rw [if_pos hW]
      obtain ⟨hf1, hf2, _, _, _⟩ := speakChunkChain_inbounds_fields i.toNat (sid + 1) now
        ⟨pl, false, ct, ch, i.toNat, sid + 1, pr, cst, csp, ov, fl⟩ rfl (by dsimp only; omega)
      refine ⟨by simpa using hf1, by simpa using hf2, rfl, ?_, ?_⟩
      · intro hpl hpa
        subst hpl hpa
        simp at hW
      · intro _ hov htrim
        rw [speakChunkChain_normal i.toNat (sid + 1) now
          ⟨pl, false, ct, ch, i.toNat, sid + 1, pr, cst, csp, ov, fl⟩ rfl
          (by dsimp only; omega) (by dsimp only; exact hov) (by dsimp only; exact htrim)]
        simp [speakCalls, speakCalls_append, speakCalls_updateProgress]
    · rw [if_neg hW]
      refine ⟨rfl, rfl, rfl, ?_, ?_⟩
      · intro _ _
        simp [speakCalls, speakCalls_append, speakCalls_updateProgress]
      · intro hcon _ _
        exact absurd hcon hW

/-- The chain `speakChunkChain` when a pending override is present at the target index:
the override text (not the stored chunk) is spoken once and the override is
cleared. -/
theorem speakChunkChain_override (i sid : Nat) (now : ℚ) (s : TTSState)
    (hsid : sid = s.sessionId) (hi : i < s.chunks.length) (o : List Char)
    (hov : s.overrideFirstChunk = some o) (hone : o ≠ []) (htr : trimWs o ≠ []) :
    speakChunkChain i sid now s =
      ({ s with
          currentChunkIndex := i, isPlaying := true, isPaused := false,
          overrideFirstChunk := none,
          chunkStartTime := some now, chunkStartPrefs := some s.currentPreferences },
       updateProgress { s with currentChunkIndex := i, isPlaying := true, isPaused := false }
         ++ [.speak o i sid]) := by
  unfold speakChunkChain
  rw [if_neg (by simp [hsid]), if_neg (by omega)]
  simp [hov, hone, htr]

/-- Claim C5 (amended): live preference change (`setPreferences`) with an
in-flight chunk, where `w = floor(elapsed-seconds × 3 × rate)` is the
estimated number of words spoken: if `w` covers the whole chunk the cursor
advances by one **clamped to the last chunk index** (not an unconditional
`+1`); if `0 < w <` word count, the next utterance is exactly the remaining
words of the current chunk joined with single spaces; in both cases the
session id is bumped and the chain restarts at `currentChunkIndex`. -/
theorem setPreferences_live_change (s : TTSState) (prefs : TTSPreferences)
    (now t0 : ℚ) (p0 : TTSPreferences)
    (hactive : s.isPlaying = true ∨ s.isPaused = true)
    (hcst : s.chunkStartTime = some t0) (ht0 : t0 ≠ 0)
    (hcsp : s.chunkStartPrefs = some p0)
    (hct : s.chunks.getD s.currentChunkIndex [] ≠ []) :
    (((if (splitWords (s.chunks.getD s.currentChunkIndex [])).length = 0 then 1
        else (splitWords (s.chunks.getD s.currentChunkIndex [])).length : Nat) : ℤ) ≤
        ⌊(max 0 (now - t0)) / 1000 * (3 * p0.rate.getD 1)⌋ →
      (setPreferences prefs now s).1.sessionId = s.sessionId + 1 ∧
      (setPreferences prefs now s).1.currentChunkIndex =
        min (s.currentChunkIndex + 1) (s.chunks.length - 1) ∧
      (s.overrideFirstChunk = none →
        trimWs (s.chunks.getD (min (s.currentChunkIndex + 1) (s.chunks.length - 1)) []) ≠ [] →
        speakCalls (setPreferences prefs now s).2 =
          [(s.chunks.getD (min (s.currentChunkIndex + 1) (s.chunks.length - 1)) [],
            min (s.currentChunkIndex + 1) (s.chunks.length - 1), s.sessionId + 1)])) ∧
    (0 < ⌊(max 0 (now - t0)) / 1000 * (3 * p0.rate.getD 1)⌋ →
      ⌊(max 0 (now - t0)) / 1000 * (3 * p0.rate.getD 1)⌋ <
        ((if (splitWords (s.chunks.getD s.currentChunkIndex [])).length = 0 then 1
          else (splitWords (s.chunks.getD s.currentChunkIndex [])).length : Nat) : ℤ) →
      (setPreferences prefs now s).1.sessionId = s.sessionId + 1 ∧
      (setPreferences prefs now s).1.currentChunkIndex = s.currentChunkIndex ∧
      speakCalls (setPreferences prefs now s).2 =
        [(joinSp ((splitWords (s.chunks.getD s.currentChunkIndex [])).drop
            (⌊(max 0 (now - t0)) / 1000 * (3 * p0.rate.getD 1)⌋).toNat),
          s.currentChunkIndex, s.sessionId + 1)]) := by
  obtain ⟨pl, pa, ct, ch, ix, sid, pr, cst, csp, ov, fl⟩ := s
  dsimp only at hactive hcst hcsp hct ⊢
  subst hcst hcsp
  have hguard : ¬(¬pl = true ∧ ¬pa = true) := by
    rcases hactive with h | h <;> simp [h]
  have hlt : ix < ch.length := by
    by_contra hcon
    exact hct (List.getD_eq_default ch [] (by omega))
  constructor
  · intro hw
    unfold setPreferences
    rw [if_neg hguard]
    try dsimp only
    rw [if_pos ⟨ht0, hct⟩, if_pos hw]
    try dsimp only
    obtain ⟨hf1, hf2, _, _, _⟩ := speakChunkChain_inbounds_fields
      (min (ix + 1) (ch.length - 1)) (sid + 1) now
      ⟨pl, pa, ct, ch, min (ix + 1) (ch.length - 1), sid + 1, prefs,
        some t0, some p0, ov, fl⟩ rfl (by dsimp only; omega)
    refine ⟨by simpa using hf2, by simpa using hf1, ?_⟩
    intro hov htrim
    subst hov
    rw [speakChunkChain_normal (min (ix + 1) (ch.length - 1)) (sid + 1) now
      ⟨pl, pa, ct, ch, min (ix + 1) (ch.length - 1), sid + 1, prefs,
        some t0, some p0, none, fl⟩ rfl (by dsimp only; omega) rfl
      (by dsimp only; exact htrim)]
    simp [speakCalls, speakCalls_append, speakCalls_updateProgress]
  · intro h0 hw
    unfold setPreferences
    rw [if_neg hguard]
    try dsimp only
    rw [if_pos ⟨ht0, hct⟩, if_neg (by omega), if_pos h0]
    try dsimp only
    have hwords : splitWords (ch.getD ix []) ≠ [] := by
      intro hcon
      rw [hcon] at hw
      simp at hw
      omega
    have htw : (if (splitWords (ch.getD ix [])).length = 0 then 1
        else (splitWords (ch.getD ix [])).length) = (splitWords (ch.getD ix [])).length := by
      rw [if_neg (by simpa [List.length_eq_zero] using hwords)]
    rw [htw] at hw
    have hpieces := splitWords_pieces (ch.getD ix [])
    have hdropW : ∀ p ∈ (splitWords (ch.getD ix [])).drop
        (⌊max 0 (now - t0) / 1000 * (3 * p0.rate.getD 1)⌋).toNat,
        p ≠ [] ∧ ∀ c ∈ p, isWs c = false :=
      fun p hp => hpieces p (List.mem_of_mem_drop hp)
    have hdropne : (splitWords (ch.getD ix [])).drop
        (⌊max 0 (now - t0) / 1000 * (3 * p0.rate.getD 1)⌋).toNat ≠ [] := by
      rw [Ne, List.drop_eq_nil_iff]
      omega
    have hjne : joinSp ((splitWords (ch.getD ix [])).drop
        (⌊max 0 (now - t0) / 1000 * (3 * p0.rate.getD 1)⌋).toNat) ≠ [] :=
      joinSp_ne_nil _ hdropne (fun p hp => (hdropW p hp).1)
    have hrem : trimWs (joinSp ((splitWords (ch.getD ix [])).drop
        (⌊max 0 (now - t0) / 1000 * (3 * p0.rate.getD 1)⌋).toNat)) =
        joinSp ((splitWords (ch.getD ix [])).drop
          (⌊max 0 (now - t0) / 1000 * (3 * p0.rate.getD 1)⌋).toNat) :=
      trimWs_joinSp_words _ hdropW
    rw [if_pos (by rw [hrem]; exact hjne)]
    try dsimp only
    rw [speakChunkChain_override ix (sid + 1) now
      ⟨pl, pa, ct, ch, ix, sid + 1, prefs, some t0, some p0,
        some (trimWs (joinSp ((splitWords (ch.getD ix [])).drop
          (⌊max 0 (now - t0) / 1000 * (3 * p0.rate.getD 1)⌋).toNat))), fl⟩
      rfl (by dsimp only; omega) _ rfl (by rw [hrem]; exact hjne)
      (by rw [hrem, hrem]; exact hjne)]
    refine ⟨rfl, rfl, ?_⟩
    simp [speakCalls, speakCalls_append, speakCalls_updateProgress]
    simpa [List.getD] using hrem
/-! ## The cursor invariant and progress well-formedness (claim C10) -/

theorem goodProgress_append {e1 e2 : List TTSEvent}
    (h1 : ∀ ev ∈ e1, GoodProgress ev) (h2 : ∀ ev ∈ e2, GoodProgress ev) :
    ∀ ev ∈ e1 ++ e2, GoodProgress ev := by
  intro ev hev
  rcases List.mem_append.mp hev with h | h
  · exact h1 ev h
  · exact h2 ev h

theorem updateProgress_good (s : TTSState) (h : Inv s) :
    ∀ ev ∈ updateProgress s, GoodProgress ev := by
  intro ev hev
  unfold updateProgress at hev
  by_cases hl : 0 < s.chunks.length
  · rw [if_pos hl] at hev
    simp only [List.mem_singleton] at hev
    subst hev
    have hidx : s.currentChunkIndex < s.chunks.length := h (by
      intro hcon
      rw [hcon] at hl
      simp at hl)
    simp only [GoodProgress]
    refine ⟨by omega, by omega, ?_, ?_⟩
    · positivity
    · rw [div_le_one (by positivity)]
      exact_mod_cast Nat.succ_le_of_lt hidx
  · rw [if_neg hl] at hev
    simp at hev

theorem finishPlayback_inv (s : TTSState) :
    Inv (finishPlayback s).1 ∧ ∀ ev ∈ (finishPlayback s).2, GoodProgress ev := by
  constructor
  · intro hne
    simp only [finishPlayback] at hne ⊢
    simpa using List.length_pos.mpr (by simpa using hne)
  · refine goodProgress_append (updateProgress_good _ ?_) (by intro ev hev; simp at hev; subst hev; trivial)
    intro hne
    simpa using List.length_pos.mpr (by simpa using hne)

theorem speakChunkChain_inv (i sid : Nat) (now : ℚ) (s : TTSState) (h : Inv s) :
    Inv (speakChunkChain i sid now s).1 ∧
    ∀ ev ∈ (speakChunkChain i sid now s).2, GoodProgress ev := by
  unfold speakChunkChain
  by_cases hsid : sid ≠ s.sessionId
  · rw [if_pos hsid]
    exact ⟨h, by intro ev hev; simp at hev⟩
  · rw [if_neg hsid]
    by_cases hlen : s.chunks.length ≤ i
    · rw [if_pos hlen]
      dsimp only
      constructor
      · intro hne
        simpa using List.length_pos.mpr (by simpa using hne)
      · refine goodProgress_append (updateProgress_good _ ?_)
          (by intro ev hev; simp at hev; subst hev; trivial)
        intro hne
        simpa using List.length_pos.mpr (by simpa using hne)
    · rw [if_neg hlen]
      have hinv1 : Inv { s with currentChunkIndex := i, isPlaying := true, isPaused := false } := by
        intro _
        simp only
        omega
      have hgood1 := updateProgress_good _ hinv1
      dsimp only
      split
      · split
        · exact ⟨by intro hne; simpa using hinv1 (by simpa using hne), by
            intro ev hev
            exact hgood1 ev hev⟩
        · refine ⟨by intro hne; simpa using hinv1 (by simpa using hne), ?_⟩
          refine goodProgress_append hgood1 ?_
          intro ev hev
          simp at hev
          subst hev
          trivial
      · split
        · exact ⟨by intro hne; simpa using hinv1 (by simpa using hne), by
            intro ev hev
            exact hgood1 ev hev⟩
        · refine ⟨by intro hne; simpa using hinv1 (by simpa using hne), ?_⟩
          refine goodProgress_append hgood1 ?_
          intro ev hev
          simp at hev
          subst hev
          trivial
theorem pauseSpeech_inv (a pok : Bool) (s : TTSState) (h : Inv s) :
    Inv (pauseSpeech a pok s).1 ∧ ∀ ev ∈ (pauseSpeech a pok s).2, GoodProgress ev := by
  have hinv1 : Inv { s with isPaused := true, isPlaying := false } := by
    intro hne
    simpa using h (by simpa using hne)
  refine ⟨hinv1, ?_⟩
  unfold pauseSpeech
  dsimp only
  refine goodProgress_append ?_ (updateProgress_good _ hinv1)
  intro ev hev
  have hcases : ev = TTSEvent.enginePause ∨ ev = TTSEvent.stop := by
    by_cases ha : a = true
    · simp [ha] at hev
      exact Or.inr hev
    · by_cases hp : pok = true
      · simp [ha, hp] at hev
        exact Or.inl hev
      · simp [ha, hp] at hev
        exact Or.inr hev
  rcases hcases with hc | hc <;> subst hc <;> trivial

theorem onStopped_inv (sid : Nat) (s : TTSState) (h : Inv s) :
    Inv (onStopped sid s).1 ∧ ∀ ev ∈ (onStopped sid s).2, GoodProgress ev := by
  unfold onStopped
  by_cases hs : sid ≠ s.sessionId
  · rw [if_pos hs]
    exact ⟨h, by intro ev hev; simp at hev⟩
  · rw [if_neg hs]
    have hinv1 : Inv { s with
        isPlaying := false, chunkStartTime := none, chunkStartPrefs := none } := by
      intro hne
      simpa using h (by simpa using hne)
    dsimp only
    split
    · refine ⟨hinv1, ?_⟩
      refine goodProgress_append (updateProgress_good _ hinv1) ?_
      intro ev hev
      simp at hev
      subst hev
      trivial
    · exact ⟨hinv1, by intro ev hev; simp at hev⟩

theorem onError_inv (sid : Nat) (s : TTSState) (h : Inv s) :
    Inv (onError sid s).1 ∧ ∀ ev ∈ (onError sid s).2, GoodProgress ev := by
  unfold onError
  by_cases hs : sid ≠ s.sessionId
  · rw [if_pos hs]
    exact ⟨h, by intro ev hev; simp at hev⟩
  · rw [if_neg hs]
    have hinv1 : Inv { s with
        isPlaying := false, chunkStartTime := none, chunkStartPrefs := none } := by
      intro hne
      simpa using h (by simpa using hne)
    refine ⟨hinv1, ?_⟩
    refine goodProgress_append (updateProgress_good _ hinv1) ?_
    intro ev hev
    simp at hev
    subst hev
    trivial

theorem onDone_inv (i sid : Nat) (now : ℚ) (s : TTSState) (h : Inv s) :
    Inv (onDone i sid now s).1 ∧ ∀ ev ∈ (onDone i sid now s).2, GoodProgress ev := by
  unfold onDone
  by_cases hs : sid ≠ s.sessionId
  · rw [if_pos hs]
    exact ⟨h, by intro ev hev; simp at hev⟩
  · rw [if_neg hs]
    by_cases hp : s.isPaused = true
    · rw [if_pos hp]
      exact ⟨h, by intro ev hev; simp at hev⟩
    · rw [if_neg hp]
      have hinv1 : Inv { s with chunkStartTime := none, chunkStartPrefs := none } := by
        intro hne
        simpa using h (by simpa using hne)
      dsimp only
      split
      · exact speakChunkChain_inv _ _ _ _ hinv1
      · exact finishPlayback_inv _
theorem resumeSpeech_inv (a r : Bool) (now : ℚ) (s : TTSState) (h : Inv s) :
    Inv (resumeSpeech a r now s).1 ∧
    ∀ ev ∈ (resumeSpeech a r now s).2, GoodProgress ev := by
  unfold resumeSpeech
  by_cases hf : s.isInitiatingPlayback = true
  · rw [if_pos hf]
    exact ⟨h, by intro ev hev; simp at hev⟩
  · rw [if_neg hf]
    by_cases hg : s.currentText = [] ∨ s.chunks = []
    · rw [if_pos hg]
      exact ⟨h, by intro ev hev; simp at hev⟩
    · rw [if_neg hg]
      dsimp only
      have hinv1 : Inv { s with
          isInitiatingPlayback := true, isPaused := false, isPlaying := true } := by
        intro hne
        simpa using h (by simpa using hne)
      split
      · constructor
        · intro hne
          simpa using hinv1 (by simpa using hne)
        · refine goodProgress_append ?_ (updateProgress_good _ hinv1)
          intro ev hev
          simp at hev
          rcases hev with hc | hc <;> subst hc <;> trivial
      · obtain ⟨h1, h2⟩ := speakChunkChain_inv s.currentChunkIndex s.sessionId now _ hinv1
        rcases hsc : speakChunkChain s.currentChunkIndex s.sessionId now
          { s with isInitiatingPlayback := true, isPaused := false, isPlaying := true }
          with ⟨s2, e2⟩
        rw [hsc] at h1 h2
        dsimp only at h1 h2 ⊢
        constructor
        · intro hne
          simpa using h1 (by simpa using hne)
        · intro ev hev
          rcases List.mem_cons.mp hev with hc | hc
          · subst hc; trivial
          · exact h2 ev hc

theorem restartSpeech_inv (text : List Char) (p : Option TTSPreferences)
    (now : ℚ) (s : TTSState) (h : Inv s) :
    Inv (restartSpeech text p now s).1 ∧
    ∀ ev ∈ (restartSpeech text p now s).2, GoodProgress ev := by
  unfold restartSpeech
  by_cases hf : s.isInitiatingPlayback = true
  · rw [if_pos hf]
    exact ⟨h, by intro ev hev; simp at hev⟩
  · rw [if_neg hf]
    dsimp only
    set sB : TTSState := { s with
      isInitiatingPlayback := true,
      currentText := text, chunks := buildChunks text,
      currentChunkIndex := 0, isPaused := false, sessionId := s.sessionId + 1,
      currentPreferences := p.getD s.currentPreferences } with hsB
    have hinvB : Inv sB := by
      intro hne
      rw [hsB] at hne ⊢
      simpa using List.length_pos.mpr (by simpa using hne)
    obtain ⟨h1, h2⟩ := speakChunkChain_inv 0 (s.sessionId + 1) now sB hinvB
    rcases hsc : speakChunkChain 0 (s.sessionId + 1) now sB with ⟨s2, e2⟩
    rw [hsc] at h1 h2
    dsimp only at h1 h2 ⊢
    constructor
    · intro hne
      simpa using h1 (by simpa using hne)
    · intro ev hev
      rcases List.mem_cons.mp hev with hc | hc
      · subst hc; trivial
      · exact h2 ev hc

theorem speakText_inv (text : List Char) (p : Option TTSPreferences) (a r : Bool)
    (now : ℚ) (s : TTSState) (h : Inv s) :
    Inv (speakText text p a r now s).1 ∧
    ∀ ev ∈ (speakText text p a r now s).2, GoodProgress ev := by
  unfold speakText
  by_cases hf : s.isInitiatingPlayback = true
  · rw [if_pos hf]
    exact ⟨h, by intro ev hev; simp at hev⟩
  · rw [if_neg hf]
    dsimp only
    by_cases hc1 : s.isPaused = true ∧ s.currentText = text
    · rw [if_pos hc1]
      have hinvA : Inv { s with isInitiatingPlayback := true } := by
        intro hne
        simpa using h (by simpa using hne)
      obtain ⟨h1, h2⟩ := resumeSpeech_inv a r now _ hinvA
      rcases hsc : resumeSpeech a r now { s with isInitiatingPlayback := true } with ⟨sB, e⟩
      rw [hsc] at h1 h2
      dsimp only at h1 h2 ⊢
      exact ⟨by intro hne; simpa using h1 (by simpa using hne), h2⟩
    · rw [if_neg hc1]
      by_cases hc2 : s.currentText = text ∧ s.chunks ≠ []
      · rw [if_pos hc2]
        dsimp only
        set sB : TTSState := { s with
          isInitiatingPlayback := true, isPaused := false,
          currentChunkIndex := 0, sessionId := s.sessionId + 1,
          currentPreferences := p.getD s.currentPreferences } with hsB
        have hinvB : Inv sB := by
          intro hne
          rw [hsB] at hne ⊢
          simpa using List.length_pos.mpr (by simpa using hne)
        obtain ⟨h1, h2⟩ := speakChunkChain_inv 0 (s.sessionId + 1) now sB hinvB
        rcases hsc : speakChunkChain 0 (s.sessionId + 1) now sB with ⟨sC, e⟩
        rw [hsc] at h1 h2
        dsimp only at h1 h2 ⊢
        refine ⟨by intro hne; simpa using h1 (by simpa using hne), ?_⟩
        refine goodProgress_append ?_ h2
        intro ev hev
        by_cases hp : s.isPlaying = true
        · rw [if_pos hp] at hev
          simp at hev
          subst hev
          trivial
        · rw [if_neg hp] at hev
          simp at hev
      · rw [if_neg hc2]
        dsimp only
        set sB : TTSState := { s with
          isInitiatingPlayback := true, isPaused := false,
          currentText := text, chunks := buildChunks text,
          currentChunkIndex := 0, sessionId := s.sessionId + 1,
          currentPreferences := p.getD s.currentPreferences } with hsB
        have hinvB : Inv sB := by
          intro hne
          rw [hsB] at hne ⊢
          simpa using List.length_pos.mpr (by simpa using hne)
        obtain ⟨h1, h2⟩ := speakChunkChain_inv 0 (s.sessionId + 1) now sB hinvB
        rcases hsc : speakChunkChain 0 (s.sessionId + 1) now sB with ⟨sC, e⟩
        rw [hsc] at h1 h2
        dsimp only at h1 h2 ⊢
        refine ⟨by intro hne; simpa using h1 (by simpa using hne), ?_⟩
        refine goodProgress_append ?_ h2
        intro ev hev
        by_cases hp : s.isPlaying = true
        · rw [if_pos hp] at hev
          simp at hev
          subst hev
          trivial
        · rw [if_neg hp] at hev
          simp at hev
theorem matchStop_inv (i sid : Nat) (now : ℚ) (S : TTSState) (hS : Inv S) :
    Inv (match speakChunkChain i sid now S with
         | (s4, e4) => (s4, TTSEvent.stop :: e4)).1 ∧
    ∀ ev ∈ (match speakChunkChain i sid now S with
         | (s4, e4) => (s4, TTSEvent.stop :: e4)).2, GoodProgress ev := by
  obtain ⟨h1, h2⟩ := speakChunkChain_inv i sid now S hS
  rcases hsc : speakChunkChain i sid now S with ⟨s4, e4⟩
  rw [hsc] at h1 h2
  refine ⟨h1, ?_⟩
  intro ev hev
  rcases List.mem_cons.mp hev with hc | hc
  · subst hc; trivial
  · exact h2 ev hc

theorem seekToChunk_inv (i : ℤ) (now : ℚ) (s : TTSState) (h : Inv s) :
    Inv (seekToChunk i now s).1 ∧ ∀ ev ∈ (seekToChunk i now s).2, GoodProgress ev := by
  unfold seekToChunk
  by_cases h1 : s.currentText = [] ∨ s.chunks = []
  · rw [if_pos h1]
    exact ⟨h, by intro ev hev; simp at hev⟩
  · rw [if_neg h1]
    by_cases h2 : i < 0 ∨ (s.chunks.length : ℤ) ≤ i
    · rw [if_pos h2]
      exact ⟨h, by intro ev hev; simp at hev⟩
    · rw [if_neg h2]
      dsimp only
      push_neg at h2
      set s1 : TTSState := { s with
        currentChunkIndex := i.toNat, isPaused := false,
        sessionId := s.sessionId + 1 } with hs1
      have hinv1 : Inv s1 := by
        intro _
        rw [hs1]
        dsimp only
        omega
      by_cases hw : s.isPlaying = true ∨ s.isPaused = true
      · rw [if_pos hw]
        obtain ⟨hc1, hc2⟩ := speakChunkChain_inv i.toNat (s.sessionId + 1) now s1 hinv1
        rcases hsc : speakChunkChain i.toNat (s.sessionId + 1) now s1 with ⟨s2, e2⟩
        rw [hsc] at hc1 hc2
        dsimp only at hc1 hc2 ⊢
        refine ⟨hc1, ?_⟩
        intro ev hev
        rcases List.mem_cons.mp hev with hc | hc
        · subst hc; trivial
        · exact goodProgress_append (updateProgress_good s1 hinv1) hc2 ev hc
      · rw [if_neg hw]
        refine ⟨hinv1, ?_⟩
        intro ev hev
        rcases List.mem_cons.mp hev with hc | hc
        · subst hc; trivial
        · exact updateProgress_good s1 hinv1 ev hc

theorem setPreferences_inv (prefs : TTSPreferences) (now : ℚ) (s : TTSState)
    (h : Inv s) :
    Inv (setPreferences prefs now s).1 ∧
    ∀ ev ∈ (setPreferences prefs now s).2, GoodProgress ev := by
  obtain ⟨pl, pa, ct, ch, ix, sid, pr, cst, csp, ov, fl⟩ := s
  have hix : ch ≠ [] → ix < ch.length := fun hne => h hne
  unfold setPreferences
  dsimp only
  by_cases hg : ¬pl = true ∧ ¬pa = true
  · rw [if_pos hg]
    exact ⟨fun hne => hix hne, by intro ev hev; simp at hev⟩
  · rw [if_neg hg]
    cases cst with
    | none =>
      dsimp only
      exact matchStop_inv ix (sid + 1) now _ (fun hne => hix hne)
    | some t0 =>
      cases csp with
      | none =>
        dsimp only
        exact matchStop_inv ix (sid + 1) now _ (fun hne => hix hne)
      | some p0 =>
        dsimp only
        by_cases hcond : t0 ≠ 0 ∧ ch.getD ix [] ≠ []
        · rw [if_pos hcond]
          have hlen : ix < ch.length := by
            by_contra hcon
            exact hcond.2 (List.getD_eq_default ch [] (by omega))
          by_cases hbig : ((if (splitWords (ch.getD ix [])).length = 0 then 1
              else (splitWords (ch.getD ix [])).length : Nat) : ℤ) ≤
              ⌊max 0 (now - t0) / 1000 * (3 * p0.rate.getD 1)⌋
          · rw [if_pos hbig]
            exact matchStop_inv _ (sid + 1) now _ (fun _ => by dsimp only; omega)
          · rw [if_neg hbig]
            by_cases hpos : (0 : ℤ) < ⌊max 0 (now - t0) / 1000 * (3 * p0.rate.getD 1)⌋
            · rw [if_pos hpos]
              by_cases hrem : trimWs (joinSp ((splitWords (ch.getD ix [])).drop
                  (⌊max 0 (now - t0) / 1000 * (3 * p0.rate.getD 1)⌋).toNat)) ≠ []
              · rw [if_pos hrem]
                exact matchStop_inv ix (sid + 1) now _ (fun _ => by dsimp only; omega)
              · rw [if_neg hrem]
                exact matchStop_inv ix (sid + 1) now _ (fun _ => by dsimp only; omega)
            · rw [if_neg hpos]
              exact matchStop_inv ix (sid + 1) now _ (fun _ => by dsimp only; omega)
        · rw [if_neg hcond]
          exact matchStop_inv ix (sid + 1) now _ (fun hne => hix hne)
/-- The advance performed by `setPreferences` when the estimate covers the
whole chunk: one step, clamped to the last index. -/
theorem setPreferences_advance_clamped (s : TTSState) (prefs : TTSPreferences)
    (now t0 : ℚ) (p0 : TTSPreferences)
    (hactive : s.isPlaying = true ∨ s.isPaused = true)
    (hcst : s.chunkStartTime = some t0) (ht0 : t0 ≠ 0)
    (hcsp : s.chunkStartPrefs = some p0)
    (hct : s.chunks.getD s.currentChunkIndex [] ≠ [])
    (hbig : (((if (splitWords (s.chunks.getD s.currentChunkIndex [])).length = 0 then 1
        else (splitWords (s.chunks.getD s.currentChunkIndex [])).length : Nat) : ℤ) ≤
        ⌊(max 0 (now - t0)) / 1000 * (3 * p0.rate.getD 1)⌋)) :
    (setPreferences prefs now s).1.currentChunkIndex =
      min (s.currentChunkIndex + 1) (s.chunks.length - 1) := by
  obtain ⟨pl, pa, ct, ch, ix, sid, pr, cst, csp, ov, fl⟩ := s
  dsimp only at hactive hcst hcsp hct hbig ⊢
  subst hcst hcsp
  have hguard : ¬(¬pl = true ∧ ¬pa = true) := by
    rcases hactive with h | h <;> simp [h]
  have hlt : ix < ch.length := by
    by_contra hcon
    exact hct (List.getD_eq_default ch [] (by omega))
  unfold setPreferences
  rw [if_neg hguard]
  try dsimp only
  rw [if_pos ⟨ht0, hct⟩, if_pos hbig]
  try dsimp only
  obtain ⟨hf1, _, _, _, _⟩ := speakChunkChain_inbounds_fields
    (min (ix + 1) (ch.length - 1)) (sid + 1) now
    ⟨pl, pa, ct, ch, min (ix + 1) (ch.length - 1), sid + 1, prefs,
      some t0, some p0, ov, fl⟩ rfl (by dsimp only; omega)
  simpa using hf1

/-! ## Claim theorems and witnesses -/

/-- Claim C5 (counterexample): a session playing the single (last) chunk whose
estimated words spoken covers the whole chunk does **not** advance
`currentChunkIndex` by one — the advance is clamped to `chunks.length - 1`,
here index 0. -/
theorem setPreferences_no_advance_at_last_chunk :
    (((if (splitWords (exC5state.chunks.getD exC5state.currentChunkIndex [])).length = 0
        then 1 else (splitWords (exC5state.chunks.getD exC5state.currentChunkIndex [])).length : Nat) : ℤ) ≤
      ⌊(max 0 ((11000 : ℚ) - 1000)) / 1000 * (3 * wPrefs.rate.getD 1)⌋) ∧
    (setPreferences wPrefs 11000 exC5state).1.currentChunkIndex ≠
      exC5state.currentChunkIndex + 1 := by
  have hlen2 : (splitWords (exC5state.chunks.getD exC5state.currentChunkIndex [])).length = 2 := by
    decide
  have hbig : (((if (splitWords (exC5state.chunks.getD exC5state.currentChunkIndex [])).length = 0
      then 1 else (splitWords (exC5state.chunks.getD exC5state.currentChunkIndex [])).length : Nat) : ℤ) ≤
      ⌊(max 0 ((11000 : ℚ) - 1000)) / 1000 * (3 * wPrefs.rate.getD 1)⌋) := by
    rw [hlen2]
    norm_num [wPrefs]
  refine ⟨hbig, ?_⟩
  rw [setPreferences_advance_clamped exC5state wPrefs 11000 1000 wPrefs
    (Or.inl rfl) rfl (by norm_num) rfl (by decide) hbig]
  decide

/-- Claim C6: every chunk produced by the chunker has length at most 600, and
the 1500-character punctuation-free sentence is split into exactly
`ceil(1500/600) = 3` slices of lengths 600, 600 and 300. -/
theorem buildChunks_max_len_spec :
    (∀ (t : List Char), ∀ c ∈ buildChunks t, c.length ≤ 600) ∧
    (buildChunks exLong1500).map List.length = [600, 600, 300] := by
  constructor
  · intro t c hc
    exact buildChunks_mem_length t c hc
  · rw [buildChunks_exLong1500]
    simp

/-- Claim C9 (amended): every chunk the chunker produces is non-empty (though
hard-split slices need not be trimmed), and empty or whitespace-only input
yields the empty chunk sequence. -/
theorem buildChunks_fragments_spec (t : List Char) :
    (∀ c ∈ buildChunks t, c ≠ []) ∧
    ((∀ c ∈ t, isWs c = true) → buildChunks t = []) :=
  ⟨buildChunks_mem_ne_nil t, buildChunks_ws_only t⟩

/-- Claim C10: every exported controller operation and every chunk-chain
callback preserves the cursor invariant (`currentChunkIndex < chunks.length`
whenever `chunks` is non-empty; `0 ≤ currentChunkIndex` holds by the `Nat`
representation), and every progress value they report satisfies
`1 ≤ currentChunk ≤ totalChunks` and `progress ∈ [0, 1]`. -/
theorem controller_preserves_invariant (s : TTSState) (text : List Char)
    (p : Option TTSPreferences) (prefs : TTSPreferences) (a r : Bool)
    (i : ℤ) (j sid : Nat) (now : ℚ) (h : Inv s) :
    (Inv (speakText text p a r now s).1 ∧
      ∀ ev ∈ (speakText text p a r now s).2, GoodProgress ev) ∧
    (Inv (pauseSpeech a r s).1 ∧ ∀ ev ∈ (pauseSpeech a r s).2, GoodProgress ev) ∧
    (Inv (resumeSpeech a r now s).1 ∧
      ∀ ev ∈ (resumeSpeech a r now s).2, GoodProgress ev) ∧
    (Inv (restartSpeech text p now s).1 ∧
      ∀ ev ∈ (restartSpeech text p now s).2, GoodProgress ev) ∧
    (Inv (seekToChunk i now s).1 ∧ ∀ ev ∈ (seekToChunk i now s).2, GoodProgress ev) ∧
    (Inv (setPreferences prefs now s).1 ∧
      ∀ ev ∈ (setPreferences prefs now s).2, GoodProgress ev) ∧
    (Inv (onDone j sid now s).1 ∧ ∀ ev ∈ (onDone j sid now s).2, GoodProgress ev) ∧
    (Inv (onStopped sid s).1 ∧ ∀ ev ∈ (onStopped sid s).2, GoodProgress ev) ∧
    (Inv (onError sid s).1 ∧ ∀ ev ∈ (onError sid s).2, GoodProgress ev) :=
  ⟨speakText_inv text p a r now s h, pauseSpeech_inv a r s h,
    resumeSpeech_inv a r now s h, restartSpeech_inv text p now s h,
    seekToChunk_inv i now s h, setPreferences_inv prefs now s h,
    onDone_inv j sid now s h, onStopped_inv sid s h, onError_inv sid s h⟩

theorem speakText_paused_same_text_noop_witness :
    wPaused.isInitiatingPlayback = false ∧ wPaused.isPaused = true ∧
    wPaused.currentText = wText ∧
    speakText wText none true true 2000 wPaused = (wPaused, []) :=
  ⟨rfl, rfl, rfl,
    speakText_paused_same_text_noop wPaused wText none true true 2000 rfl rfl rfl⟩

theorem buildChunks_roundtrip_witness :
    (∀ s ∈ splitSentences (normalizeWs exShortText), s.length ≤ MAX_CHUNK_LEN) ∧
    joinSp (buildChunks exShortText) = normalizeWs exShortText :=
  ⟨by decide, buildChunks_roundtrip exShortText (by decide)⟩

theorem pause_resume_preserves_position_witness :
    (pauseSpeech true true wState).1.currentChunkIndex = 1 ∧
    (pauseSpeech true true wState).1.isPaused = true ∧
    ((resumeSpeech true true 2000 (pauseSpeech true true wState).1).1.currentChunkIndex = 1 ∧
     (resumeSpeech true true 2000 (pauseSpeech true true wState).1).1.isPlaying = true ∧
     (resumeSpeech true true 2000 (pauseSpeech true true wState).1).1.isPaused = false ∧
     (resumeSpeech true true 2000 (pauseSpeech true true wState).1).1.sessionId = wState.sessionId ∧
     speakCalls (resumeSpeech true true 2000 (pauseSpeech true true wState).1).2 =
       [(wState.chunks.getD 1 [], 1, wState.sessionId)]) :=
  pause_resume_preserves_position wState 1 true true true true 2000 rfl rfl rfl
    (by decide) (by decide) (by decide) rfl (by decide) (Or.inl rfl)

theorem stale_callback_noop_witness :
    onDone 0 4 2000 wState = (wState, []) ∧ onStopped 4 wState = (wState, []) ∧
    onError 4 wState = (wState, []) :=
  stale_callback_noop wState 0 4 2000 (by decide)

theorem setPreferences_live_change_witness :
    0 < ⌊(max 0 ((1000 + 5000 / 3 : ℚ) - 1000)) / 1000 * (3 * wPrefs.rate.getD 1)⌋ ∧
    ⌊(max 0 ((1000 + 5000 / 3 : ℚ) - 1000)) / 1000 * (3 * wPrefs.rate.getD 1)⌋ <
      ((if (splitWords (exC5ten.chunks.getD exC5ten.currentChunkIndex [])).length = 0 then 1
        else (splitWords (exC5ten.chunks.getD exC5ten.currentChunkIndex [])).length : Nat) : ℤ) ∧
    ((setPreferences ⟨none, some (3 / 2)⟩ (1000 + 5000 / 3) exC5ten).1.sessionId =
      exC5ten.sessionId + 1 ∧
     (setPreferences ⟨none, some (3 / 2)⟩ (1000 + 5000 / 3) exC5ten).1.currentChunkIndex =
      exC5ten.currentChunkIndex ∧
     speakCalls (setPreferences ⟨none, some (3 / 2)⟩ (1000 + 5000 / 3) exC5ten).2 =
       [(joinSp ((splitWords (exC5ten.chunks.getD exC5ten.currentChunkIndex [])).drop
           (⌊(max 0 ((1000 + 5000 / 3 : ℚ) - 1000)) / 1000 * (3 * wPrefs.rate.getD 1)⌋).toNat),
         exC5ten.currentChunkIndex, exC5ten.sessionId + 1)]) :=
  ⟨by norm_num [wPrefs], by
      have h10 : (splitWords (exC5ten.chunks.getD exC5ten.currentChunkIndex [])).length = 10 := by
        decide
      rw [h10]
      norm_num [wPrefs],
    (setPreferences_live_change exC5ten ⟨none, some (3 / 2)⟩ (1000 + 5000 / 3) 1000 wPrefs
      (Or.inl rfl) rfl (by norm_num) rfl (by decide)).2
      (by norm_num [wPrefs])
      (by
        have h10 : (splitWords (exC5ten.chunks.getD exC5ten.currentChunkIndex [])).length = 10 := by
          decide
        rw [h10]
        norm_num [wPrefs])⟩

theorem buildChunks_max_len_spec_witness :
    (("Hi there. Bye.").data).length ≤ 600 ∧
    (buildChunks exLong1500).map List.length = [600, 600, 300] :=
  ⟨buildChunks_max_len_spec.1 exShortText (("Hi there. Bye.").data) (by decide),
    buildChunks_max_len_spec.2⟩

theorem seekToChunk_spec_witness :
    (seekToChunk 2 7000 wState).1.currentChunkIndex = (2 : ℤ).toNat ∧
    (seekToChunk 2 7000 wState).1.sessionId = wState.sessionId + 1 ∧
    speakCalls (seekToChunk 2 7000 wState).2 =
      [(wState.chunks.getD (2 : ℤ).toNat [], (2 : ℤ).toNat, wState.sessionId + 1)] := by
  obtain ⟨ha, hb, _, _, hd⟩ :=
    (seekToChunk_spec wState 2 7000).2 (by decide) (by decide) (by decide) (by decide)
  exact ⟨ha, hb, hd (Or.inl rfl) rfl (by decide)⟩

theorem initiating_guard_witness :
    speakText wText none true true 2000 wBusy = (wBusy, []) ∧
    resumeSpeech true true 2000 wBusy = (wBusy, []) ∧
    restartSpeech wText none 2000 wBusy = (wBusy, []) :=
  initiating_guard wBusy wText none true true 2000 rfl

theorem buildChunks_fragments_spec_witness :
    buildChunks ([] : List Char) = [] ∧ (("Hi there. Bye.").data : List Char) ≠ [] :=
  ⟨(buildChunks_fragments_spec []).2 (by simp),
    (buildChunks_fragments_spec exShortText).1 (("Hi there. Bye.").data) (by decide)⟩

theorem controller_preserves_invariant_witness :
    Inv (speakText wText none true true 2000 wState).1 ∧
    Inv (setPreferences wPrefs 2000 wState).1 :=
  ⟨(controller_preserves_invariant wState wText none wPrefs true true 2 0 4 2000
      (by intro _; decide)).1.1,
    (controller_preserves_invariant wState wText none wPrefs true true 2 0 4 2000
      (by intro _; decide)).2.2.2.2.2.1.1⟩
end Storyspire
